import Mathlib

/-! Verification of the spill-capable SPSC path queue and the work-stealing
traversal loop of `bfind` (`src/path_queue.rs`, `src/main.rs`), shallowly
embedded in Lean. Paths are modelled as byte lists; the `u32` / `usize`
counters of the source are naturals reduced modulo `2^32` / `2^64` exactly
where the source wraps. -/

/-- Bytes of a filesystem path (the `PathBuf` of the source). -/
abbrev FsPath := List Nat

/-- Modulus of the 32-bit ring counters (`AtomicU32`): `2^32`. -/
def W32 : Nat := 4294967296

/-- Modulus of the 64-bit global counters (`AtomicUsize`): `2^64`. -/
def W64 : Nat := 18446744073709551616

theorem W32_eq : W32 = 2 ^ 32 := by norm_num [W32]

theorem W64_eq : W64 = 2 ^ 64 := by norm_num [W64]

/-- Wrapping subtraction `a - b` on `w`-bit unsigned integers (for operands
already reduced modulo `w`). -/
def wsub (w a b : Nat) : Nat := (a + w - b) % w

theorem wsub_eq (w a b : Nat) (ha : a < w) (hb : b < w) :
    wsub w a b = if b ≤ a then a - b else a + w - b := by
  unfold wsub
  split
  · have h1 : a + w - b = (a - b) + w := by omega
    rw [h1, Nat.add_mod_right, Nat.mod_eq_of_lt (by omega)]
  · rw [Nat.mod_eq_of_lt (by omega)]

theorem wsub_zero (w : Nat) : wsub w 0 0 = 0 := by
  simp [wsub]

theorem wsub_eq_zero_iff (w a b : Nat) (ha : a < w) (hb : b < w) :
    wsub w a b = 0 ↔ a = b := by
  rw [wsub_eq w a b ha hb]
  split <;> omega

theorem wsub_push_succ (w a b : Nat) (ha : a < w) (hb : b < w)
    (h : wsub w a b + 1 < w) : wsub w ((a + 1) % w) b = wsub w a b + 1 := by
  rw [wsub_eq w a b ha hb] at h ⊢
  rcases Nat.lt_or_ge (a + 1) w with h1 | h1
  · rw [Nat.mod_eq_of_lt h1, wsub_eq w (a + 1) b h1 hb]
    split_ifs at h ⊢ <;> omega
  · have ha1 : (a + 1) % w = 0 := by
      have h2 : a + 1 = w := by omega
      rw [h2, Nat.mod_self]
    rw [ha1, wsub_eq w 0 b (by omega) hb]
    split_ifs at h ⊢ <;> omega

theorem wsub_pop_succ (w a b : Nat) (ha : a < w) (hb : b < w)
    (h : 0 < wsub w a b) : wsub w a ((b + 1) % w) = wsub w a b - 1 := by
  rw [wsub_eq w a b ha hb] at h ⊢
  rcases Nat.lt_or_ge (b + 1) w with h1 | h1
  · rw [Nat.mod_eq_of_lt h1, wsub_eq w a (b + 1) ha h1]
    split_ifs at h ⊢ <;> omega
  · have hb1 : (b + 1) % w = 0 := by
      have h2 : b + 1 = w := by omega
      rw [h2, Nat.mod_self]
    rw [hb1, wsub_eq w a 0 ha (by omega)]
    split_ifs at h ⊢ <;> omega

/-- Fueled doubling loop behind `nextPow2`. -/
def nextPow2Go (n : Nat) : Nat → Nat → Nat
  | 0, p => p
  | fuel + 1, p => if n ≤ p then p else nextPow2Go n fuel (2 * p)

/-- Smallest power of two that is at least `n` (Rust `u32::next_power_of_two`;
returns 1 for `n = 0`), computed by doubling. -/
def nextPow2 (n : Nat) : Nat := nextPow2Go n n 1

theorem nextPow2Go_dvd (n : Nat) (hn : n ≤ 2 ^ 31) :
    ∀ fuel p, 0 < p → p ∣ 2 ^ 31 →
      (nextPow2Go n fuel p ∣ 2 ^ 31 ∧ 0 < nextPow2Go n fuel p) := by
  intro fuel
  induction fuel with
  | zero => intro p hp hd; exact ⟨hd, hp⟩
  | succ fuel ih =>
    intro p hp hd
    by_cases h : n ≤ p
    · simpa [nextPow2Go, h] using ⟨hd, hp⟩
    · have hd2 : 2 * p ∣ 2 ^ 31 := by
        obtain ⟨k, hk, hpk⟩ := (Nat.dvd_prime_pow Nat.prime_two).mp hd
        have hklt : k < 31 := by
          by_contra hge
          push_neg at hge
          have hk31 : k = 31 := le_antisymm hk hge
          apply h
          rw [hpk, hk31]
          exact hn
        rw [hpk]
        have h2 : 2 * 2 ^ k = 2 ^ (k + 1) := by ring
        rw [h2]
        exact pow_dvd_pow 2 (by omega)
      have hrec := ih (2 * p) (by omega) hd2
      simpa [nextPow2Go, h] using hrec

theorem nextPow2_dvd (n : Nat) (hn : n ≤ 2 ^ 31) :
    nextPow2 n ∣ 2 ^ 31 ∧ 0 < nextPow2 n :=
  nextPow2Go_dvd n hn n 1 (by omega) (one_dvd _)

theorem getD_set_self {α : Type} (l : List α) (i : Nat) (a d : α)
    (h : i < l.length) : (l.set i a).getD i d = a := by
  simp [List.getD_eq_getElem?_getD, List.getElem?_set_self, h]

theorem getD_set_ne {α : Type} (l : List α) (i j : Nat) (a d : α)
    (h : i ≠ j) : (l.set i a).getD j d = l.getD j d := by
  simp [List.getD_eq_getElem?_getD, List.getElem?_set_ne h]

theorem set_getD_self {α : Type} :
    ∀ (l : List α) (i : Nat) (d : α), i < l.length → l.set i (l.getD i d) = l
  | a :: l, 0, d, _ => by simp
  | a :: l, i + 1, d, h => by
      simp only [List.set_cons_succ, List.getD_cons_succ]
      rw [set_getD_self l i d (by simpa using h)]
  | [], i, d, h => by simp at h

theorem slot_ne (C s i d : Nat) (hi : i < d) (hd : d < C) :
    (s + i) % C ≠ (s + d) % C := by
  intro h
  have h2 : i % C = d % C := Nat.ModEq.add_left_cancel' s h
  rw [Nat.mod_eq_of_lt (by omega), Nat.mod_eq_of_lt hd] at h2
  omega

theorem mask_eq_mod (x C : Nat) (h : C ∣ 2 ^ 31) :
    x &&& (C - 1) = x % C := by
  obtain ⟨k, hk, hCk⟩ := (Nat.dvd_prime_pow Nat.prime_two).mp h
  subst hCk
  exact Nat.and_pow_two_sub_one_eq_mod x k

theorem dvd_W32 {C : Nat} (h : C ∣ 2 ^ 31) : C ∣ W32 := by
  rw [W32_eq]
  exact h.trans (pow_dvd_pow 2 (by omega))

theorem modW_add_mod (C x i : Nat) (h : C ∣ W32) :
    ((x % W32) + i) % C = (x + i) % C := by
  conv_lhs => rw [Nat.add_mod, Nat.mod_mod_of_dvd x h, ← Nat.add_mod]

theorem add_W32_mod (C x : Nat) (h : C ∣ W32) : (x + W32) % C = x % C := by
  obtain ⟨m, hm⟩ := h
  rw [hm, Nat.add_mul_mod_self_left]

/-- In-memory SPSC ring (`MemPathQueue` of `path_queue.rs`). The raw slot
buffer is a list of length `capacity`; an entry whose logical index lies
outside the window `[pop_count, push_count)` corresponds to uninitialised
memory and its value is meaningless. -/
structure MemPathQueue where
  capacity : Nat
  pop_count : Nat
  push_count : Nat
  buf : List FsPath
deriving DecidableEq

namespace MemPathQueue

/-- Translation of `MemPathQueue::new`: capacity rounded up to a power of
two, counters zero, uninitialised buffer of that many slots. -/
def new (capacity : Nat) : MemPathQueue :=
  { capacity := nextPow2 capacity, pop_count := 0, push_count := 0,
    buf := List.replicate (nextPow2 capacity) [] }

/-- Number of resident paths: `push_count - pop_count` in wrapping `u32`. -/
def size (q : MemPathQueue) : Nat := wsub W32 q.push_count q.pop_count

/-- Translation of `MemPathQueue::push` (`path_queue.rs:90`). -/
def push (q : MemPathQueue) (p : FsPath) : Option FsPath × MemPathQueue :=
  if q.size = q.capacity then (some p, q)
  else (none, { q with buf := q.buf.set (q.push_count &&& (q.capacity - 1)) p,
                       push_count := (q.push_count + 1) % W32 })

/-- Translation of `MemPathQueue::pop` (`path_queue.rs:104`). -/
def pop (q : MemPathQueue) : Option FsPath × MemPathQueue :=
  if q.size = 0 then (none, q)
  else (some (q.buf.getD (q.pop_count &&& (q.capacity - 1)) []),
        { q with pop_count := (q.pop_count + 1) % W32 })

/-- Slots `start mod cap, …, (start+n-1) mod cap` of a buffer, in order. -/
def itemsFrom (buf : List FsPath) (cap start n : Nat) : List FsPath :=
  (List.range n).map (fun i => buf.getD ((start + i) % cap) [])

/-- Abstraction function: the resident paths, oldest first (slot `i mod C`
holds logical index `i` for `pop_count ≤ i < push_count`). -/
def items (q : MemPathQueue) : List FsPath :=
  itemsFrom q.buf q.capacity q.pop_count q.size

/-- Well-formedness: power-of-two capacity (at most `2^31`), buffer length
`capacity`, counters below `2^32`, at most `capacity` residents. -/
def WF (q : MemPathQueue) : Prop :=
  0 < q.capacity ∧ q.capacity ∣ 2 ^ 31 ∧ q.buf.length = q.capacity ∧
  q.push_count < W32 ∧ q.pop_count < W32 ∧ q.size ≤ q.capacity

instance (q : MemPathQueue) : Decidable (WF q) := by
  unfold WF
  infer_instance

theorem itemsFrom_length (buf : List FsPath) (cap start n : Nat) :
    (itemsFrom buf cap start n).length = n := by
  simp [itemsFrom]

theorem items_length (q : MemPathQueue) : q.items.length = q.size :=
  itemsFrom_length q.buf q.capacity q.pop_count q.size

theorem items_nil (q : MemPathQueue) (h : q.size = 0) : q.items = [] := by
  simp [items, h, itemsFrom]

theorem itemsFrom_succ (buf : List FsPath) (cap start n : Nat) :
    itemsFrom buf cap start (n + 1) =
      itemsFrom buf cap start n ++ [buf.getD ((start + n) % cap) []] := by
  unfold itemsFrom
  rw [List.range_succ, List.map_append]
  rfl

theorem itemsFrom_shift (buf : List FsPath) (cap start n : Nat) :
    itemsFrom buf cap start (n + 1) =
      buf.getD (start % cap) [] :: itemsFrom buf cap (start + 1) n := by
  unfold itemsFrom
  rw [List.range_succ_eq_map, List.map_cons, List.map_map]
  refine congrArg₂ _ (by simp) ?_
  apply List.map_congr_left
  intro i _
  show buf.getD ((start + (i + 1)) % cap) [] = buf.getD ((start + 1 + i) % cap) []
  have h : start + (i + 1) = start + 1 + i := by omega
  rw [h]

theorem itemsFrom_set_ne (buf : List FsPath) (cap start n j : Nat) (p : FsPath)
    (h : ∀ i < n, (start + i) % cap ≠ j) :
    itemsFrom (buf.set j p) cap start n = itemsFrom buf cap start n := by
  unfold itemsFrom
  apply List.map_congr_left
  intro i hi
  exact getD_set_ne buf j ((start + i) % cap) p []
    (fun hje => h i (List.mem_range.mp hi) hje.symm)

theorem itemsFrom_modW (buf : List FsPath) (cap start n : Nat) (h : cap ∣ W32) :
    itemsFrom buf cap (start % W32) n = itemsFrom buf cap start n := by
  unfold itemsFrom
  apply List.map_congr_left
  intro i _
  rw [modW_add_mod cap start i h]

theorem size_lt_W32 (q : MemPathQueue) : q.size < W32 :=
  Nat.mod_lt _ (by norm_num [W32])

theorem cap_le (q : MemPathQueue) (hWF : q.WF) : q.capacity ≤ 2 ^ 31 :=
  Nat.le_of_dvd (by norm_num) hWF.2.1

/-- The producer-side slot is the logical slot `pop_count + size`. -/
theorem push_slot (q : MemPathQueue) (hWF : q.WF) :
    q.push_count % q.capacity = (q.pop_count + q.size) % q.capacity := by
  obtain ⟨hCpos, hCdvd, hblen, hpw, hqw, hsle⟩ := hWF
  have hW : q.capacity ∣ W32 := dvd_W32 hCdvd
  unfold size
  rw [wsub_eq W32 q.push_count q.pop_count hpw hqw]
  split
  · congr 1
    omega
  · have h1 : q.pop_count + (q.push_count + W32 - q.pop_count) = q.push_count + W32 := by
      omega
    rw [h1, add_W32_mod _ _ hW]

theorem push_full (q : MemPathQueue) (p : FsPath) (h : q.size = q.capacity) :
    q.push p = (some p, q) := by
  simp [push, h]

theorem push_ok (q : MemPathQueue) (p : FsPath) (hWF : q.WF)
    (h : q.size < q.capacity) :
    (q.push p).1 = none ∧
    (q.push p).2.items = q.items ++ [p] ∧
    (q.push p).2.WF ∧
    (q.push p).2.size = q.size + 1 ∧
    (q.push p).2.capacity = q.capacity ∧
    (q.push p).2.pop_count = q.pop_count ∧
    (q.push p).2.push_count = (q.push_count + 1) % W32 := by
  obtain ⟨hCpos, hCdvd, hblen, hpw, hqw, hsle⟩ := hWF
  have hne : ¬ q.size = q.capacity := by omega
  have hcle : q.capacity ≤ 2 ^ 31 := Nat.le_of_dvd (by norm_num) hCdvd
  have hsz1 : q.size + 1 < W32 := by
    have : (2:Nat) ^ 31 < W32 := by norm_num [W32]
    omega
  have hsize : wsub W32 ((q.push_count + 1) % W32) q.pop_count = q.size + 1 :=
    wsub_push_succ W32 q.push_count q.pop_count hpw hqw hsz1
  have hmask : q.push_count &&& (q.capacity - 1) = q.push_count % q.capacity :=
    mask_eq_mod q.push_count q.capacity hCdvd
  have hslot := push_slot q ⟨hCpos, hCdvd, hblen, hpw, hqw, hsle⟩
  have hq2 : (q.push p).2 =
      { q with buf := q.buf.set (q.push_count &&& (q.capacity - 1)) p,
               push_count := (q.push_count + 1) % W32 } := by
    simp [push, hne]
  refine ⟨by simp [push, hne], ?_, ?_, ?_, ?_, ?_, ?_⟩
  · rw [hq2]
    show itemsFrom (q.buf.set (q.push_count &&& (q.capacity - 1)) p) q.capacity
        q.pop_count (wsub W32 ((q.push_count + 1) % W32) q.pop_count) =
      q.items ++ [p]
    rw [hsize, hmask, hslot, itemsFrom_succ]
    refine congrArg₂ _ ?_ ?_
    · exact itemsFrom_set_ne q.buf q.capacity q.pop_count q.size _ p
        (fun i hi => slot_ne q.capacity q.pop_count i q.size hi (by omega))
    · refine congrArg₂ _ ?_ rfl
      rw [getD_set_self]
      rw [hblen]
      exact Nat.mod_lt _ hCpos
  · rw [hq2]
    refine ⟨hCpos, hCdvd, by simpa using hblen, Nat.mod_lt _ (by norm_num [W32]), hqw, ?_⟩
    show wsub W32 ((q.push_count + 1) % W32) q.pop_count ≤ q.capacity
    rw [hsize]
    omega
  · rw [hq2]
    show wsub W32 ((q.push_count + 1) % W32) q.pop_count = q.size + 1
    exact hsize
  · rw [hq2]
  · rw [hq2]
  · rw [hq2]

theorem pop_empty (q : MemPathQueue) (h : q.size = 0) : q.pop = (none, q) := by
  simp [pop, h]

theorem pop_none_id (q : MemPathQueue) (h : (q.pop).1 = none) : q.pop = (none, q) := by
  unfold pop at h ⊢
  split at h
  · simp_all [pop]
  · simp at h

theorem pop_ok (q : MemPathQueue) (hWF : q.WF) (x : FsPath) (xs : List FsPath)
    (h : q.items = x :: xs) :
    (q.pop).1 = some x ∧
    (q.pop).2.items = xs ∧
    (q.pop).2.WF ∧
    (q.pop).2.size + 1 = q.size ∧
    (q.pop).2.capacity = q.capacity ∧
    (q.pop).2.push_count = q.push_count ∧
    (q.pop).2.pop_count = (q.pop_count + 1) % W32 := by
  obtain ⟨hCpos, hCdvd, hblen, hpw, hqw, hsle⟩ := hWF
  have hW : q.capacity ∣ W32 := dvd_W32 hCdvd
  have hlen : q.size = xs.length + 1 := by
    rw [← items_length q, h]
    simp
  have hpos : 0 < q.size := by omega
  have hne : ¬ q.size = 0 := by omega
  have hmask : q.pop_count &&& (q.capacity - 1) = q.pop_count % q.capacity :=
    mask_eq_mod q.pop_count q.capacity hCdvd
  have hsize : wsub W32 q.push_count ((q.pop_count + 1) % W32) = q.size - 1 :=
    wsub_pop_succ W32 q.push_count q.pop_count hpw hqw hpos
  have hshape : q.items = q.buf.getD (q.pop_count % q.capacity) [] ::
      itemsFrom q.buf q.capacity (q.pop_count + 1) xs.length := by
    unfold items
    rw [hlen, itemsFrom_shift]
  have hx : x = q.buf.getD (q.pop_count % q.capacity) [] := by
    rw [h] at hshape
    exact (List.cons.injEq _ _ _ _ ▸ hshape).1
  have hxs : xs = itemsFrom q.buf q.capacity (q.pop_count + 1) xs.length := by
    rw [h] at hshape
    exact (List.cons.injEq _ _ _ _ ▸ hshape).2
  have hq2 : (q.pop).2 = { q with pop_count := (q.pop_count + 1) % W32 } := by
    simp [pop, hne]
  refine ⟨?_, ?_, ?_, ?_, ?_, ?_, ?_⟩
  · rw [hx]
    simp [pop, hne, hmask]
  · rw [hq2]
    show itemsFrom q.buf q.capacity ((q.pop_count + 1) % W32)
        (wsub W32 q.push_count ((q.pop_count + 1) % W32)) = xs
    rw [hsize, itemsFrom_modW q.buf q.capacity (q.pop_count + 1) _ hW]
    rw [hxs]
    congr 1
    omega
  · rw [hq2]
    refine ⟨hCpos, hCdvd, hblen, hpw, Nat.mod_lt _ (by norm_num [W32]), ?_⟩
    show wsub W32 q.push_count ((q.pop_count + 1) % W32) ≤ q.capacity
    rw [hsize]
    omega
  · rw [hq2]
    show wsub W32 q.push_count ((q.pop_count + 1) % W32) + 1 = q.size
    rw [hsize]
    omega
  · rw [hq2]
  · rw [hq2]
  · rw [hq2]

/-- Paths dropped by `impl Drop for MemPathQueue` (`path_queue.rs:131-138`):
the destructor only calls `dealloc` on the raw buffer; it reads no slot and
drops no resident path. -/
def droppedOnDrop (_q : MemPathQueue) : List FsPath := []

/-- Modelled from the spec: "when the ring is destroyed, every occupied
slot's path is dropped" — the paths a spec-conforming destructor drops. -/
def specDroppedOnDrop (q : MemPathQueue) : List FsPath := q.items

end MemPathQueue


/-- Bytes of `bytes` up to and including the first occurrence of `delim`
(all of `bytes` if `delim` does not occur): `BufRead::read_until`. -/
def readUntil (delim : Nat) : List Nat → List Nat
  | [] => []
  | b :: bs => if b = delim then [b] else b :: readUntil delim bs

/-- Serialisation of a record list: each path's raw bytes followed by one
NUL byte (`0`), concatenated. -/
def encodeRecords : List FsPath → List Nat
  | [] => []
  | p :: ps => p ++ 0 :: encodeRecords ps

/-- Decode `n` NUL-terminated records from the front of `bytes`. -/
def splitRecords : Nat → List Nat → List FsPath
  | 0, _ => []
  | n + 1, bytes =>
    (readUntil 0 bytes).dropLast ::
      splitRecords n (bytes.drop (readUntil 0 bytes).length)

theorem readUntil_append (p : List Nat) (rest : List Nat) (h : ¬ 0 ∈ p) :
    readUntil 0 (p ++ 0 :: rest) = p ++ [0] := by
  induction p with
  | nil => simp [readUntil]
  | cons b bs ih =>
    have hb : ¬ b = 0 := fun hb => h (by simp [hb])
    show readUntil 0 (b :: (bs ++ 0 :: rest)) = b :: (bs ++ [0])
    unfold readUntil
    rw [if_neg hb, ih (fun hm => h (by simp [hm]))]

theorem readUntil_last (bytes : List Nat) (h : 0 ∈ bytes) :
    (readUntil 0 bytes).getLast? = some 0 := by
  induction bytes with
  | nil => simp at h
  | cons b bs ih =>
    by_cases hb : b = 0
    · simp [readUntil, hb]
    · have hm : 0 ∈ bs := by
        rcases List.mem_cons.mp h with h1 | h1
        · omega
        · exact h1
      have hne : readUntil 0 bs ≠ [] := by
        cases bs with
        | nil => simp at hm
        | cons c cs => unfold readUntil; split <;> simp
      obtain ⟨c, cs, hcc⟩ : ∃ c cs, readUntil 0 bs = c :: cs := by
        cases hru : readUntil 0 bs with
        | nil => exact absurd hru hne
        | cons c cs => exact ⟨c, cs, rfl⟩
      unfold readUntil
      rw [if_neg hb, hcc, List.getLast?_cons_cons, ← hcc]
      exact ih hm

/-- Spill log (`TempfilePathQueue` of `path_queue.rs`). The unlinked
temporary file is modelled by the bytes written and flushed so far (`file`)
and the reader's position (`cursor`); `usize` counters as in the source. -/
structure TempfilePathQueue where
  pop_count : Nat
  push_count : Nat
  file : List Nat
  cursor : Nat
deriving DecidableEq

namespace TempfilePathQueue

/-- Translation of `TempfilePathQueue::new`: fresh empty temp file, both
counters zero. -/
def new : TempfilePathQueue :=
  { pop_count := 0, push_count := 0, file := [], cursor := 0 }

/-- Translation of `TempfilePathQueue::push` (`path_queue.rs:164`): write the
path's raw bytes, then one NUL byte, flush, bump `push_count`. -/
def push (q : TempfilePathQueue) (p : FsPath) : TempfilePathQueue :=
  { q with file := q.file ++ (p ++ [0]),
           push_count := (q.push_count + 1) % W64 }

/-- Translation of `TempfilePathQueue::pop` (`path_queue.rs:174`): if
`push_count - pop_count == 0` return None; otherwise `read_until` the next
NUL, strip it (`buffer.pop()`), bump `pop_count`. -/
def pop (q : TempfilePathQueue) : Option FsPath × TempfilePathQueue :=
  if q.push_count - q.pop_count = 0 then (none, q)
  else
    (some (readUntil 0 (q.file.drop q.cursor)).dropLast,
     { q with cursor := q.cursor + (readUntil 0 (q.file.drop q.cursor)).length,
              pop_count := (q.pop_count + 1) % W64 })

/-- The `assert_eq!(delim, Some(b'\0'))` of `pop` holds in a state iff the
byte taken off the read buffer is a NUL. -/
def popAssertOk (q : TempfilePathQueue) : Prop :=
  (readUntil 0 (q.file.drop q.cursor)).getLast? = some 0

instance (q : TempfilePathQueue) : Decidable (popAssertOk q) := by
  unfold popAssertOk
  infer_instance

/-- Abstraction function: the records not yet consumed, oldest first. -/
def pending (q : TempfilePathQueue) : List FsPath :=
  splitRecords (q.push_count - q.pop_count) (q.file.drop q.cursor)

/-- Well-formedness: the unread part of the file is exactly the encoding of
`push_count - pop_count` NUL-free records. -/
def WF (q : TempfilePathQueue) : Prop :=
  q.file.drop q.cursor = encodeRecords q.pending ∧
  (∀ p ∈ q.pending, ¬ 0 ∈ p) ∧
  q.pop_count ≤ q.push_count ∧
  q.push_count = q.pop_count + (q.pending).length ∧
  q.push_count < W64 ∧
  q.cursor ≤ q.file.length

instance (q : TempfilePathQueue) : Decidable (WF q) := by
  unfold WF
  infer_instance

theorem splitRecords_encode :
    ∀ (ps : List FsPath), (∀ p ∈ ps, ¬ 0 ∈ p) →
      splitRecords ps.length (encodeRecords ps) = ps := by
  intro ps
  induction ps with
  | nil => intro _; rfl
  | cons p rest ih =>
    intro h
    have hp : ¬ 0 ∈ p := h p (by simp)
    show splitRecords (rest.length + 1) (p ++ 0 :: encodeRecords rest) = p :: rest
    unfold splitRecords
    rw [readUntil_append p (encodeRecords rest) hp]
    rw [List.dropLast_concat]
    have hdrop : (p ++ 0 :: encodeRecords rest).drop (p ++ [0]).length =
        encodeRecords rest := by
      have h1 : p ++ 0 :: encodeRecords rest = (p ++ [0]) ++ encodeRecords rest := by
        simp
      rw [h1, List.drop_append_of_le_length (by omega), List.drop_eq_nil_of_le (by omega)]
      simp
    rw [hdrop, ih (fun x hx => h x (by simp [hx]))]

theorem encodeRecords_append (ps : List FsPath) (p : FsPath) :
    encodeRecords (ps ++ [p]) = encodeRecords ps ++ (p ++ [0]) := by
  induction ps with
  | nil => simp [encodeRecords]
  | cons x xs ih => simp [encodeRecords, ih]

theorem pending_eq_of_parts (q : TempfilePathQueue) (ps : List FsPath)
    (hfile : q.file.drop q.cursor = encodeRecords ps)
    (hnul : ∀ p ∈ ps, ¬ 0 ∈ p)
    (hcnt : q.push_count - q.pop_count = ps.length) :
    q.pending = ps := by
  unfold pending
  rw [hcnt, hfile]
  exact splitRecords_encode ps hnul

theorem new_WF : WF new := by decide

theorem new_pending : pending new = [] := rfl

theorem push_pending (q : TempfilePathQueue) (p : FsPath) (hWF : q.WF)
    (hp : ¬ 0 ∈ p) (hcnt : q.push_count + 1 < W64) :
    (q.push p).pending = q.pending ++ [p] ∧
    (q.push p).WF ∧
    (q.push p).push_count = q.push_count + 1 ∧
    (q.push p).pop_count = q.pop_count ∧
    (q.push p).file = q.file ++ (p ++ [0]) := by
  obtain ⟨hfile, hnul, hle, heq, hlt, hcur⟩ := hWF
  have hmod : (q.push_count + 1) % W64 = q.push_count + 1 := Nat.mod_eq_of_lt hcnt
  have hdrop : (q.file ++ (p ++ [0])).drop q.cursor =
      encodeRecords (q.pending ++ [p]) := by
    rw [List.drop_append_of_le_length hcur, hfile, encodeRecords_append]
  have hcnt2 : (q.push p).push_count - (q.push p).pop_count =
      (q.pending ++ [p]).length := by
    show (q.push_count + 1) % W64 - q.pop_count = (q.pending ++ [p]).length
    rw [hmod]
    simp
    omega
  have hnul2 : ∀ x ∈ q.pending ++ [p], ¬ 0 ∈ x := by
    intro x hx
    rcases List.mem_append.mp hx with h1 | h1
    · exact hnul x h1
    · rw [List.mem_singleton.mp h1]
      exact hp
  have hpend : (q.push p).pending = q.pending ++ [p] :=
    pending_eq_of_parts (q.push p) (q.pending ++ [p]) hdrop hnul2 hcnt2
  refine ⟨hpend, ⟨?_, ?_, ?_, ?_, ?_, ?_⟩, ?_, rfl, rfl⟩
  · rw [hpend]
    exact hdrop
  · rw [hpend]
    exact hnul2
  · show q.pop_count ≤ (q.push_count + 1) % W64
    rw [hmod]
    omega
  · show (q.push_count + 1) % W64 = q.pop_count + (q.push p).pending.length
    rw [hmod, hpend]
    simp
    omega
  · show (q.push_count + 1) % W64 < W64
    rw [hmod]
    exact hcnt
  · show q.cursor ≤ (q.file ++ (p ++ [0])).length
    simp
    omega
  · show (q.push_count + 1) % W64 = q.push_count + 1
    exact hmod

theorem pop_none_iff (q : TempfilePathQueue) (hWF : q.WF) :
    (q.pop).1 = none ↔ q.push_count = q.pop_count := by
  obtain ⟨hfile, hnul, hle, heq, hlt, hcur⟩ := hWF
  unfold pop
  split_ifs with h
  · exact iff_of_true rfl (by omega)
  · exact iff_of_false (by simp) (by omega)

theorem pop_pending (q : TempfilePathQueue) (hWF : q.WF) (x : FsPath)
    (xs : List FsPath) (h : q.pending = x :: xs) :
    (q.pop).1 = some x ∧
    (q.pop).2.pending = xs ∧
    (q.pop).2.WF ∧
    (q.pop).2.push_count = q.push_count ∧
    (q.pop).2.pop_count = (q.pop_count + 1) % W64 := by
  obtain ⟨hfile, hnul, hle, heq, hlt, hcur⟩ := hWF
  have hx : ¬ 0 ∈ x := hnul x (by rw [h]; simp)
  have hnulxs : ∀ p ∈ xs, ¬ 0 ∈ p := fun p hp => hnul p (by rw [h]; simp [hp])
  have hlen : q.push_count - q.pop_count = xs.length + 1 := by
    rw [heq, h]
    simp
  have hne : ¬ q.push_count - q.pop_count = 0 := by omega
  have hfile2 : q.file.drop q.cursor = x ++ 0 :: encodeRecords xs := by
    rw [hfile, h]
    rfl
  have hru : readUntil 0 (q.file.drop q.cursor) = x ++ [0] := by
    rw [hfile2]
    exact readUntil_append x _ hx
  have hmod : (q.pop_count + 1) % W64 = q.pop_count + 1 := Nat.mod_eq_of_lt (by omega)
  have hflen : q.cursor + (x ++ [0]).length ≤ q.file.length := by
    have h1 : (q.file.drop q.cursor).length = q.file.length - q.cursor :=
      List.length_drop q.cursor q.file
    rw [hfile2] at h1
    simp at h1
    simp
    omega
  have hdrop2 : q.file.drop (q.cursor + (x ++ [0]).length) = encodeRecords xs := by
    rw [← List.drop_drop, hfile2]
    have h1 : x ++ 0 :: encodeRecords xs = (x ++ [0]) ++ encodeRecords xs := by
      simp
    rw [h1, List.drop_append_of_le_length (le_refl _),
        List.drop_eq_nil_of_le (le_refl _)]
    simp
  have hq2 : (q.pop).2 =
      { q with cursor := q.cursor + (readUntil 0 (q.file.drop q.cursor)).length,
               pop_count := (q.pop_count + 1) % W64 } := by
    simp [pop, hne]
  have hcnt2 : (q.pop).2.push_count - (q.pop).2.pop_count = xs.length := by
    rw [hq2]
    show q.push_count - (q.pop_count + 1) % W64 = xs.length
    rw [hmod]
    omega
  have hfile3 : (q.pop).2.file.drop ((q.pop).2.cursor) = encodeRecords xs := by
    rw [hq2]
    show q.file.drop (q.cursor + (readUntil 0 (q.file.drop q.cursor)).length) =
      encodeRecords xs
    rw [hru]
    exact hdrop2
  have hpend2 : (q.pop).2.pending = xs :=
    pending_eq_of_parts (q.pop).2 xs hfile3 hnulxs hcnt2
  refine ⟨?_, hpend2, ⟨?_, ?_, ?_, ?_, ?_, ?_⟩, ?_, ?_⟩
  · show (q.pop).1 = some x
    have : (q.pop).1 = some (readUntil 0 (q.file.drop q.cursor)).dropLast := by
      simp [pop, hne]
    rw [this, hru, List.dropLast_concat]
  · rw [hpend2]
    exact hfile3
  · rw [hpend2]
    exact hnulxs
  · show (q.pop).2.pop_count ≤ (q.pop).2.push_count
    rw [hq2]
    show (q.pop_count + 1) % W64 ≤ q.push_count
    rw [hmod]
    omega
  · show (q.pop).2.push_count = (q.pop).2.pop_count + (q.pop).2.pending.length
    rw [hpend2, hq2]
    show q.push_count = (q.pop_count + 1) % W64 + xs.length
    rw [hmod]
    omega
  · show (q.pop).2.push_count < W64
    rw [hq2]
    exact hlt
  · show (q.pop).2.cursor ≤ (q.pop).2.file.length
    rw [hq2]
    show q.cursor + (readUntil 0 (q.file.drop q.cursor)).length ≤ q.file.length
    rw [hru]
    exact hflen
  · rw [hq2]
  · rw [hq2]

/-- Results of `n` successive pops from the spill log, in order. -/
def popListT : TempfilePathQueue → Nat → List FsPath
  | _, 0 => []
  | q, n + 1 =>
    match q.pop with
    | (some p, q2) => p :: popListT q2 n
    | (none, _) => []

theorem popListT_pending : ∀ (n : Nat) (q : TempfilePathQueue), q.WF →
    q.pending.length = n → popListT q n = q.pending := by
  intro n
  induction n with
  | zero =>
    intro q _ hlen
    have h0 : q.pending = [] := List.eq_nil_of_length_eq_zero hlen
    rw [h0]
    rfl
  | succ n ih =>
    intro q hWF hlen
    obtain ⟨x, xs, hxx⟩ : ∃ x xs, q.pending = x :: xs := by
      cases hp : q.pending with
      | nil => rw [hp] at hlen; simp at hlen
      | cons x xs => exact ⟨x, xs, rfl⟩
    obtain ⟨h1, h2, h3, -, -⟩ := pop_pending q hWF x xs hxx
    rcases hq : q.pop with ⟨r, q2⟩
    rw [hq] at h1 h2 h3
    simp only at h1 h2 h3
    have hlen2 : q2.pending.length = n := by
      rw [h2]
      rw [hxx] at hlen
      simpa using hlen
    simp [popListT, hq, h1, hxx, ih q2 h3 hlen2, h2]

end TempfilePathQueue

/-- Three-stage spill queue (`PathQueue` of `path_queue.rs`). The three
spinlock fields are booleans meaning "currently held by another thread"; a
`try_lock` by the running operation succeeds exactly when the flag is false,
and the guard is dropped again before the operation returns. -/
structure PathQueue where
  push_count : Nat
  pop_count : Nat
  pushing : Bool
  popping : Bool
  spilling : Bool
  left : MemPathQueue
  mid : Option TempfilePathQueue
  right : MemPathQueue
deriving DecidableEq

namespace PathQueue

/-- Translation of `PathQueue::new` (`path_queue.rs:248`). -/
def new (read_buf_len write_buf_len : Nat) : PathQueue :=
  { push_count := 0, pop_count := 0, pushing := false, popping := false,
    spilling := false, left := MemPathQueue.new read_buf_len, mid := none,
    right := MemPathQueue.new write_buf_len }

/-- The `while let Some(p) = right.pop()` loop of `PathQueue::push` when
`mid` is empty (`path_queue.rs:275-279`): drain `right` into `left`, writing
to `mid` exactly the items `left` rejects. The fuel bounds the iteration
count; `push` instantiates it with `right.size`, after which `right.pop()`
returns `None` and the loop exits. -/
def drainRL : Nat → MemPathQueue → TempfilePathQueue → MemPathQueue →
    MemPathQueue × TempfilePathQueue × MemPathQueue
  | 0, l, m, r => (l, m, r)
  | fuel + 1, l, m, r =>
    match r.pop with
    | (none, r2) => (l, m, r2)
    | (some p, r2) =>
      match l.push p with
      | (none, l2) => drainRL fuel l2 m r2
      | (some p2, l2) => drainRL fuel l2 (m.push p2) r2

/-- The `while let Some(p) = right.pop()` loop of `PathQueue::push` when
`mid` is non-empty (`path_queue.rs:281-283`): drain `right` entirely into
`mid`. -/
def drainRM : Nat → TempfilePathQueue → MemPathQueue →
    TempfilePathQueue × MemPathQueue
  | 0, m, r => (m, r)
  | fuel + 1, m, r =>
    match r.pop with
    | (none, r2) => (m, r2)
    | (some p, r2) => drainRM fuel (m.push p) r2

/-- Translation of `PathQueue::push` (`path_queue.rs:262-297`): non-blocking;
hands the path back if the pushing (or, on a full `right`, the spilling)
lock is held; otherwise pushes into `right`, spilling first if `right` is
full, and bumps the global `push_count`. -/
def push (q : PathQueue) (p : FsPath) : Option FsPath × PathQueue :=
  if q.pushing then (some p, q)
  else
    match q.right.push p with
    | (none, r2) =>
      (none, { q with right := r2, push_count := (q.push_count + 1) % W64 })
    | (some p2, _) =>
      if q.spilling then (some p2, q)
      else
        let m0 := q.mid.getD TempfilePathQueue.new
        if m0.push_count - m0.pop_count = 0 then
          let res := drainRL q.right.size q.left m0 q.right
          (none, { q with left := res.1, mid := some res.2.1,
                          right := (res.2.2.push p2).2,
                          push_count := (q.push_count + 1) % W64 })
        else
          let res := drainRM q.right.size m0 q.right
          (none, { q with mid := some res.1,
                          right := (res.2.push p2).2,
                          push_count := (q.push_count + 1) % W64 })

/-- Translation of `PathQueue::pop` (`path_queue.rs:299-336`): non-blocking;
returns `None` if the popping lock is held, if the wrapping difference of
the global counters is zero, or if the spilling lock is held; otherwise
tries `left`, then `mid`, then `right`, in that priority order. -/
def pop (q : PathQueue) : Option FsPath × PathQueue :=
  if q.popping then (none, q)
  else if wsub W64 q.push_count q.pop_count = 0 then (none, q)
  else if q.spilling then (none, q)
  else
    match q.left.pop with
    | (some p, l2) =>
      (some p, { q with left := l2, pop_count := (q.pop_count + 1) % W64 })
    | (none, _) =>
      match q.mid with
      | some m =>
        match m.pop with
        | (some p, m2) =>
          (some p, { q with mid := some m2,
                            pop_count := (q.pop_count + 1) % W64 })
        | (none, _) =>
          match q.right.pop with
          | (some p, r2) =>
            (some p, { q with right := r2,
                              pop_count := (q.pop_count + 1) % W64 })
          | (none, _) => (none, q)
      | none =>
        match q.right.pop with
        | (some p, r2) =>
          (some p, { q with right := r2,
                            pop_count := (q.pop_count + 1) % W64 })
        | (none, _) => (none, q)

/-- Pending records of the spill stage (empty when `mid` was never created). -/
def midPending (q : PathQueue) : List FsPath :=
  match q.mid with
  | some m => m.pending
  | none => []

/-- Total pushes ever recorded by the spill stage. -/
def midPushCount (q : PathQueue) : Nat :=
  match q.mid with
  | some m => m.push_count
  | none => 0

/-- Abstraction function: all resident paths, oldest first — consumer
priority order `left`, then `mid`, then `right`. -/
def toList (q : PathQueue) : List FsPath :=
  q.left.items ++ midPending q ++ q.right.items

/-- Spill-stage well-formedness (trivial when `mid` was never created). -/
def midWF (q : PathQueue) : Prop :=
  match q.mid with
  | some m => m.WF
  | none => True

instance midWF_dec (q : PathQueue) : Decidable (midWF q) :=
  match hm : q.mid with
  | some m => decidable_of_iff m.WF (by simp [midWF, hm])
  | none => isTrue (by simp [midWF, hm])

/-- Well-formedness of the composite queue in a quiescent state: all locks
free, both rings and the spill stage well-formed, global counters consistent
with the resident paths, and all resident paths free of NUL bytes. -/
def WF (q : PathQueue) : Prop :=
  q.pushing = false ∧ q.popping = false ∧ q.spilling = false ∧
  q.left.WF ∧ q.right.WF ∧ midWF q ∧
  q.push_count < W64 ∧ q.pop_count < W64 ∧
  wsub W64 q.push_count q.pop_count = (toList q).length ∧
  (∀ p ∈ toList q, ¬ 0 ∈ p)

instance (q : PathQueue) : Decidable (WF q) := by
  unfold WF
  infer_instance

end PathQueue

namespace PathQueue

theorem drainRM_spec : ∀ (fuel : Nat) (m : TempfilePathQueue) (r : MemPathQueue),
    m.WF → r.WF → r.size ≤ fuel → (∀ p ∈ r.items, ¬ 0 ∈ p) →
    m.push_count + r.size < W64 →
    (drainRM fuel m r).1.pending = m.pending ++ r.items ∧
    (drainRM fuel m r).2.items = [] ∧
    (drainRM fuel m r).1.WF ∧
    (drainRM fuel m r).2.WF ∧
    (drainRM fuel m r).2.capacity = r.capacity ∧
    (drainRM fuel m r).2.size = 0 ∧
    (drainRM fuel m r).1.push_count = m.push_count + r.items.length := by
  intro fuel
  induction fuel with
  | zero =>
    intro m r hm hr hsz hnul hcnt
    have h0 : r.size = 0 := by omega
    have hit : r.items = [] := MemPathQueue.items_nil r h0
    exact ⟨by simp [drainRM, hit], by simp [drainRM, hit], hm, hr, rfl, h0,
      by simp [drainRM, hit]⟩
  | succ fuel ih =>
    intro m r hm hr hsz hnul hcnt
    by_cases h0 : r.size = 0
    · have hpop : r.pop = (none, r) := MemPathQueue.pop_empty r h0
      have hit : r.items = [] := MemPathQueue.items_nil r h0
      refine ⟨?_, ?_, ?_, ?_, ?_, ?_, ?_⟩ <;> simp [drainRM, hpop, hit, h0, hr, hm]
    · obtain ⟨x, xs, hxx⟩ : ∃ x xs, r.items = x :: xs := by
        cases hit : r.items with
        | nil =>
          rw [← MemPathQueue.items_length r, hit] at h0
          simp at h0
        | cons x xs => exact ⟨x, xs, rfl⟩
      obtain ⟨hp1, hp2, hp3, hp4, hp5, hp6, hp7⟩ := MemPathQueue.pop_ok r hr x xs hxx
      rcases hpair : r.pop with ⟨ro, r2⟩
      rw [hpair] at hp1 hp2 hp3 hp4 hp5
      simp only at hp1 hp2 hp3 hp4 hp5
      have hx : ¬ 0 ∈ x := hnul x (by rw [hxx]; simp)
      obtain ⟨hm1, hm2, hm3, hm4, hm5⟩ :=
        TempfilePathQueue.push_pending m x hm hx (by omega)
      have hsz2 : r2.size ≤ fuel := by omega
      have hnul2 : ∀ p ∈ r2.items, ¬ 0 ∈ p := by
        rw [hp2]
        intro p hp
        exact hnul p (by rw [hxx]; simp [hp])
      have hcnt2 : (m.push x).push_count + r2.size < W64 := by
        rw [hm3]
        omega
      obtain ⟨i1, i2, i3, i4, i5, i6, i7⟩ := ih (m.push x) r2 hm2 hp3 hsz2 hnul2 hcnt2
      have hstep : drainRM (fuel + 1) m r = drainRM fuel (m.push x) r2 := by
        simp [drainRM, hpair, hp1]
      rw [hstep]
      refine ⟨?_, i2, i3, i4, ?_, i6, ?_⟩
      · rw [i1, hm1, hxx, hp2]
        simp
      · rw [i5, hp5]
      · rw [i7, hm3, hxx, hp2]
        simp
        omega

theorem drainRL_spec : ∀ (fuel : Nat) (l : MemPathQueue) (m : TempfilePathQueue)
    (r : MemPathQueue), l.WF → m.WF → r.WF → r.size ≤ fuel →
    (∀ p ∈ r.items, ¬ 0 ∈ p) → m.push_count + r.size < W64 →
    (drainRL fuel l m r).1.items =
        l.items ++ r.items.take (l.capacity - l.size) ∧
    (drainRL fuel l m r).2.1.pending =
        m.pending ++ r.items.drop (l.capacity - l.size) ∧
    (drainRL fuel l m r).2.2.items = [] ∧
    (drainRL fuel l m r).1.WF ∧
    (drainRL fuel l m r).2.1.WF ∧
    (drainRL fuel l m r).2.2.WF ∧
    (drainRL fuel l m r).1.capacity = l.capacity ∧
    (drainRL fuel l m r).2.2.capacity = r.capacity ∧
    (drainRL fuel l m r).2.2.size = 0 ∧
    (drainRL fuel l m r).2.1.push_count =
        m.push_count + (r.items.drop (l.capacity - l.size)).length := by
  intro fuel
  induction fuel with
  | zero =>
    intro l m r hl hm hr hsz hnul hcnt
    have h0 : r.size = 0 := by omega
    have hit : r.items = [] := MemPathQueue.items_nil r h0
    exact ⟨by simp [drainRL, hit], by simp [drainRL, hit], by simp [drainRL, hit],
      hl, hm, hr, rfl, rfl, h0, by simp [drainRL, hit]⟩
  | succ fuel ih =>
    intro l m r hl hm hr hsz hnul hcnt
    by_cases h0 : r.size = 0
    · have hpop : r.pop = (none, r) := MemPathQueue.pop_empty r h0
      have hit : r.items = [] := MemPathQueue.items_nil r h0
      refine ⟨?_, ?_, ?_, ?_, ?_, ?_, ?_, ?_, ?_, ?_⟩ <;>
        simp [drainRL, hpop, hit, h0, hr, hl, hm]
    · obtain ⟨x, xs, hxx⟩ : ∃ x xs, r.items = x :: xs := by
        cases hit : r.items with
        | nil =>
          rw [← MemPathQueue.items_length r, hit] at h0
          simp at h0
        | cons x xs => exact ⟨x, xs, rfl⟩
      obtain ⟨hp1, hp2, hp3, hp4, hp5, hp6, hp7⟩ := MemPathQueue.pop_ok r hr x xs hxx
      rcases hpair : r.pop with ⟨ro, r2⟩
      rw [hpair] at hp1 hp2 hp3 hp4 hp5
      simp only at hp1 hp2 hp3 hp4 hp5
      have hx : ¬ 0 ∈ x := hnul x (by rw [hxx]; simp)
      have hsz2 : r2.size ≤ fuel := by omega
      have hnul2 : ∀ p ∈ r2.items, ¬ 0 ∈ p := by
        rw [hp2]
        intro p hp
        exact hnul p (by rw [hxx]; simp [hp])
      by_cases hfull : l.size = l.capacity
      · -- left is full: the item overflows into mid
        have hpushl : l.push x = (some x, l) := MemPathQueue.push_full l x hfull
        obtain ⟨hm1, hm2, hm3, hm4, hm5⟩ :=
          TempfilePathQueue.push_pending m x hm hx (by omega)
        have hcnt2 : (m.push x).push_count + r2.size < W64 := by
          rw [hm3]
          omega
        obtain ⟨i1, i2, i3, i4, i5, i6, i7, i8, i9, i10⟩ :=
          ih l (m.push x) r2 hl hm2 hp3 hsz2 hnul2 hcnt2
        have hstep : drainRL (fuel + 1) l m r = drainRL fuel l (m.push x) r2 := by
          simp [drainRL, hpair, hp1, hpushl]
        rw [hstep]
        have hk : l.capacity - l.size = 0 := by omega
        refine ⟨?_, ?_, i3, i4, i5, i6, i7, ?_, i9, ?_⟩
        · rw [i1, hk, hxx]
          simp
        · rw [i2, hk, hm1, hxx, hp2]
          simp
        · rw [i8, hp5]
        · rw [i10, hk, hm3, hxx, hp2]
          simp
          omega
      · -- left has room: the item moves into left
        have hroom : l.size < l.capacity := by
          rcases hl with ⟨-, -, -, -, -, hsle⟩
          omega
        obtain ⟨hl1, hl2, hl3, hl4, hl5, hl6, hl7⟩ :=
          MemPathQueue.push_ok l x hl hroom
        rcases hlpair : l.push x with ⟨lo, l2⟩
        rw [hlpair] at hl1 hl2 hl3 hl4 hl5 hl6
        simp only at hl1 hl2 hl3 hl4 hl5 hl6
        have hcnt2 : m.push_count + r2.size < W64 := by omega
        obtain ⟨i1, i2, i3, i4, i5, i6, i7, i8, i9, i10⟩ :=
          ih l2 m r2 hl3 hm hp3 hsz2 hnul2 hcnt2
        have hstep : drainRL (fuel + 1) l m r = drainRL fuel l2 m r2 := by
          simp [drainRL, hpair, hp1, hlpair, hl1]
        rw [hstep]
        have hk : l.capacity - l2.size = l.capacity - l.size - 1 := by omega
        have hkpos : 0 < l.capacity - l.size := by omega
        refine ⟨?_, ?_, i3, i4, i5, i6, ?_, ?_, i9, ?_⟩
        · rw [i1, hl5, hk, hl2, hp2, hxx]
          have htake : (x :: xs).take (l.capacity - l.size) =
              x :: xs.take (l.capacity - l.size - 1) := by
            cases hc : l.capacity - l.size with
            | zero => omega
            | succ c => simp
          rw [htake]
          simp
        · rw [i2, hl5, hk, hp2, hxx]
          have hdrop : (x :: xs).drop (l.capacity - l.size) =
              xs.drop (l.capacity - l.size - 1) := by
            cases hc : l.capacity - l.size with
            | zero => omega
            | succ c => simp
          rw [hdrop]
        · rw [i7, hl5]
        · rw [i8, hp5]
        · rw [i10, hl5, hk, hp2, hxx]
          have hdrop : (x :: xs).drop (l.capacity - l.size) =
              xs.drop (l.capacity - l.size - 1) := by
            cases hc : l.capacity - l.size with
            | zero => omega
            | succ c => simp
          rw [hdrop]

end PathQueue

namespace PathQueue

theorem toList_new (rl wl : Nat) : toList (new rl wl) = [] := by
  simp [toList, new, midPending, MemPathQueue.items, MemPathQueue.new,
    MemPathQueue.size, wsub_zero, MemPathQueue.itemsFrom]

theorem new_WF_q (rl wl : Nat) (hrl : rl ≤ 2 ^ 31) (hwl : wl ≤ 2 ^ 31) :
    WF (new rl wl) := by
  obtain ⟨hd1, hp1⟩ := nextPow2_dvd rl hrl
  obtain ⟨hd2, hp2⟩ := nextPow2_dvd wl hwl
  refine ⟨rfl, rfl, rfl, ⟨hp1, hd1, by simp [new, MemPathQueue.new], ?_, ?_, ?_⟩,
    ⟨hp2, hd2, by simp [new, MemPathQueue.new], ?_, ?_, ?_⟩, trivial, ?_, ?_, ?_, ?_⟩
  · show (0:Nat) < W32
    norm_num [W32]
  · show (0:Nat) < W32
    norm_num [W32]
  · show wsub W32 0 0 ≤ nextPow2 rl
    rw [wsub_zero]
    omega
  · show (0:Nat) < W32
    norm_num [W32]
  · show (0:Nat) < W32
    norm_num [W32]
  · show wsub W32 0 0 ≤ nextPow2 wl
    rw [wsub_zero]
    omega
  · show (0:Nat) < W64
    norm_num [W64]
  · show (0:Nat) < W64
    norm_num [W64]
  · rw [toList_new]
    show wsub W64 0 0 = ([] : List FsPath).length
    rw [wsub_zero]
    rfl
  · rw [toList_new]
    intro p hp
    simp at hp

theorem push_ok_q (q : PathQueue) (p : FsPath) (hWF : q.WF) (hp : ¬ 0 ∈ p)
    (hlen : (toList q).length + 1 < W64)
    (hmid : midPushCount q + q.right.size + 1 < W64) :
    (q.push p).1 = none ∧
    (q.push p).2.WF ∧
    toList (q.push p).2 = toList q ++ [p] ∧
    (q.push p).2.push_count = (q.push_count + 1) % W64 ∧
    (q.push p).2.pop_count = q.pop_count ∧
    midPushCount (q.push p).2 + (q.push p).2.left.size + (q.push p).2.right.size
      = midPushCount q + q.left.size + q.right.size + 1 := by
  obtain ⟨hpushing, hpopping, hspilling, hlWF, hrWF, hmWF, hpc, hqc, hcount, hnul⟩ := hWF
  have hstep : wsub W64 ((q.push_count + 1) % W64) q.pop_count = (toList q).length + 1 := by
    rw [← hcount]
    exact wsub_push_succ W64 q.push_count q.pop_count hpc hqc (by omega)
  have hnulr : ∀ x ∈ q.right.items, ¬ 0 ∈ x := by
    intro x hx
    exact hnul x (by simp [toList, hx])
  by_cases hfull : q.right.size = q.right.capacity
  case neg =>
    -- fast path: right has room
    have hroom : q.right.size < q.right.capacity := by
      rcases hrWF with ⟨-, -, -, -, -, hsle⟩
      omega
    obtain ⟨hr1, hr2, hr3, hr4, hr5, hr6, hr7⟩ := MemPathQueue.push_ok q.right p hrWF hroom
    rcases hrp : q.right.push p with ⟨ro, r2⟩
    rw [hrp] at hr1 hr2 hr3 hr4 hr5
    simp only at hr1 hr2 hr3 hr4 hr5
    have hq2 : q.push p = (none, { q with right := r2, push_count := (q.push_count + 1) % W64 }) := by
      simp [push, hpushing, hrp, hr1]
    have hfst : (q.push p).1 = none := by rw [hq2]
    have hsnd : (q.push p).2 = { q with right := r2, push_count := (q.push_count + 1) % W64 } := by
      rw [hq2]
    have htl : toList (q.push p).2 = toList q ++ [p] := by
      rw [hsnd]
      have hLHS : toList ({ q with right := r2, push_count := (q.push_count + 1) % W64 }) = q.left.items ++ midPending q ++ r2.items := rfl
      have hRHS : toList q = q.left.items ++ midPending q ++ q.right.items := rfl
      rw [hLHS, hRHS, hr2]
      simp
    refine ⟨hfst, ?_, htl, ?_, ?_, ?_⟩
    · rw [hsnd]
      refine ⟨hpushing, hpopping, hspilling, hlWF, hr3, hmWF, ?_, hqc, ?_, ?_⟩
      · exact Nat.mod_lt _ (by norm_num [W64])
      · show wsub W64 ((q.push_count + 1) % W64) q.pop_count = (toList ({ q with right := r2, push_count := (q.push_count + 1) % W64 })).length
        rw [← hsnd, htl, hstep]
        simp
      · show ∀ x ∈ toList ({ q with right := r2, push_count := (q.push_count + 1) % W64 }), ¬ 0 ∈ x
        rw [← hsnd, htl]
        intro x hx
        rcases List.mem_append.mp hx with h1 | h1
        · exact hnul x h1
        · rw [List.mem_singleton.mp h1]
          exact hp
    · rw [hsnd]
    · rw [hsnd]
    · rw [hsnd]
      show midPushCount q + q.left.size + r2.size = _
      rw [hr4]
      omega
  case pos =>
    -- right is full: spill
    have hrp : q.right.push p = (some p, q.right) := MemPathQueue.push_full q.right p hfull
    have hm0 : (q.mid.getD TempfilePathQueue.new).WF ∧
        (q.mid.getD TempfilePathQueue.new).pending = midPending q ∧
        (q.mid.getD TempfilePathQueue.new).push_count = midPushCount q := by
      cases hqm : q.mid with
      | none =>
        refine ⟨TempfilePathQueue.new_WF, ?_, ?_⟩
        · simp only [hqm, Option.getD_none, midPending]
          exact TempfilePathQueue.new_pending
        · simp only [hqm, Option.getD_none, midPushCount]
          rfl
      | some m =>
        have hmwf : m.WF := by
          have h := hmWF
          unfold midWF at h
          rw [hqm] at h
          exact h
        refine ⟨?_, ?_, ?_⟩ <;> simp [midPending, midPushCount, hqm, hmwf]
    obtain ⟨hm0WF, hm0pend, hm0push⟩ := hm0
    have hcond_iff : (q.mid.getD TempfilePathQueue.new).push_count -
        (q.mid.getD TempfilePathQueue.new).pop_count = 0 ↔ midPending q = [] := by
      obtain ⟨-, -, -, hmf4, -, -⟩ := hm0WF
      rw [hmf4, hm0pend]
      constructor
      · intro h
        exact List.eq_nil_of_length_eq_zero (by omega)
      · intro h
        rw [h]
        simp
    have hrlen : q.right.items.length = q.right.size := MemPathQueue.items_length q.right
    have hllen : q.left.items.length = q.left.size := MemPathQueue.items_length q.left
    by_cases hcond : (q.mid.getD TempfilePathQueue.new).push_count -
        (q.mid.getD TempfilePathQueue.new).pop_count = 0
    · -- mid empty (or absent): drain right into left, overflow into mid
      have hmpnil : midPending q = [] := hcond_iff.mp hcond
      obtain ⟨i1, i2, i3, i4, i5, i6, i7, i8, i9, i10⟩ :=
        drainRL_spec q.right.size q.left (q.mid.getD TempfilePathQueue.new) q.right
          hlWF hm0WF hrWF (le_refl _) hnulr (by rw [hm0push]; omega)
      rcases hres : drainRL q.right.size q.left (q.mid.getD TempfilePathQueue.new) q.right
        with ⟨lf, mf, rf⟩
      rw [hres] at i1 i2 i3 i4 i5 i6 i7 i8 i9 i10
      simp only at i1 i2 i3 i4 i5 i6 i7 i8 i9 i10
      obtain ⟨j1, j2, j3, j4, j5, j6, j7⟩ :=
        MemPathQueue.push_ok rf p i6 (by
          rcases i6 with ⟨hc, -⟩
          omega)
      have hq2 : q.push p = (none, { q with left := lf, mid := some mf, right := (rf.push p).2, push_count := (q.push_count + 1) % W64 }) := by
        simp [push, hpushing, hrp, hspilling, hcond, hres]
      have hfst : (q.push p).1 = none := by rw [hq2]
      have hsnd : (q.push p).2 = { q with left := lf, mid := some mf, right := (rf.push p).2, push_count := (q.push_count + 1) % W64 } := by
        rw [hq2]
      have hj2 : (rf.push p).2.items = [p] := by
        rw [j2, i3]
        rfl
      have htl : toList (q.push p).2 = toList q ++ [p] := by
        rw [hsnd]
        have hLHS : toList ({ q with left := lf, mid := some mf, right := (rf.push p).2, push_count := (q.push_count + 1) % W64 }) = lf.items ++ mf.pending ++ (rf.push p).2.items := rfl
        have hRHS : toList q = q.left.items ++ midPending q ++ q.right.items := rfl
        rw [hLHS, hRHS, i1, i2, hj2, hm0pend, hmpnil]
        conv_rhs => rw [← List.take_append_drop (q.left.capacity - q.left.size)
          q.right.items]
        simp
      refine ⟨hfst, ?_, htl, ?_, ?_, ?_⟩
      · rw [hsnd]
        refine ⟨hpushing, hpopping, hspilling, i4, j3, ?_, ?_, hqc, ?_, ?_⟩
        · show midWF _
          unfold midWF
          exact i5
        · exact Nat.mod_lt _ (by norm_num [W64])
        · show wsub W64 ((q.push_count + 1) % W64) q.pop_count = (toList ({ q with left := lf, mid := some mf, right := (rf.push p).2, push_count := (q.push_count + 1) % W64 })).length
          rw [← hsnd, htl, hstep]
          simp
        · show ∀ x ∈ toList ({ q with left := lf, mid := some mf, right := (rf.push p).2, push_count := (q.push_count + 1) % W64 }), ¬ 0 ∈ x
          rw [← hsnd, htl]
          intro x hx
          rcases List.mem_append.mp hx with h1 | h1
          · exact hnul x h1
          · rw [List.mem_singleton.mp h1]
            exact hp
      · rw [hsnd]
      · rw [hsnd]
      · rw [hsnd]
        show mf.push_count + lf.size + (rf.push p).2.size = _
        have hlsz : lf.size = q.left.items.length +
            (q.right.items.take (q.left.capacity - q.left.size)).length := by
          rw [← MemPathQueue.items_length, i1]
          simp
        have htd : (q.right.items.take (q.left.capacity - q.left.size)).length +
            (q.right.items.drop (q.left.capacity - q.left.size)).length =
            q.right.items.length := by
          rw [← List.length_append, List.take_append_drop]
        rw [i10, hm0push, j4, i9, hlsz, hllen]
        omega
    · -- mid non-empty: drain right entirely into mid
      obtain ⟨i1, i2, i3, i4, i5, i6, i7⟩ :=
        drainRM_spec q.right.size (q.mid.getD TempfilePathQueue.new) q.right
          hm0WF hrWF (le_refl _) hnulr (by rw [hm0push]; omega)
      rcases hres : drainRM q.right.size (q.mid.getD TempfilePathQueue.new) q.right
        with ⟨mf, rf⟩
      rw [hres] at i1 i2 i3 i4 i5 i6 i7
      simp only at i1 i2 i3 i4 i5 i6 i7
      obtain ⟨j1, j2, j3, j4, j5, j6, j7⟩ :=
        MemPathQueue.push_ok rf p i4 (by
          rcases i4 with ⟨hc, -⟩
          omega)
      have hq2 : q.push p = (none, { q with mid := some mf, right := (rf.push p).2, push_count := (q.push_count + 1) % W64 }) := by
        simp [push, hpushing, hrp, hspilling, hcond, hres]
      have hfst : (q.push p).1 = none := by rw [hq2]
      have hsnd : (q.push p).2 = { q with mid := some mf, right := (rf.push p).2, push_count := (q.push_count + 1) % W64 } := by
        rw [hq2]
      have hj2 : (rf.push p).2.items = [p] := by
        rw [j2, i2]
        rfl
      have htl : toList (q.push p).2 = toList q ++ [p] := by
        rw [hsnd]
        have hLHS : toList ({ q with mid := some mf, right := (rf.push p).2, push_count := (q.push_count + 1) % W64 }) = q.left.items ++ mf.pending ++ (rf.push p).2.items := rfl
        have hRHS : toList q = q.left.items ++ midPending q ++ q.right.items := rfl
        rw [hLHS, hRHS, i1, hj2, hm0pend]
        simp
      refine ⟨hfst, ?_, htl, ?_, ?_, ?_⟩
      · rw [hsnd]
        refine ⟨hpushing, hpopping, hspilling, hlWF, j3, ?_, ?_, hqc, ?_, ?_⟩
        · show midWF _
          unfold midWF
          exact i3
        · exact Nat.mod_lt _ (by norm_num [W64])
        · show wsub W64 ((q.push_count + 1) % W64) q.pop_count = (toList ({ q with mid := some mf, right := (rf.push p).2, push_count := (q.push_count + 1) % W64 })).length
          rw [← hsnd, htl, hstep]
          simp
        · show ∀ x ∈ toList ({ q with mid := some mf, right := (rf.push p).2, push_count := (q.push_count + 1) % W64 }), ¬ 0 ∈ x
          rw [← hsnd, htl]
          intro x hx
          rcases List.mem_append.mp hx with h1 | h1
          · exact hnul x h1
          · rw [List.mem_singleton.mp h1]
            exact hp
      · rw [hsnd]
      · rw [hsnd]
      · rw [hsnd]
        show mf.push_count + q.left.size + (rf.push p).2.size = _
        rw [i7, hm0push, j4, i6]
        omega

theorem pop_empty_q (q : PathQueue) (hWF : q.WF) (h : toList q = []) :
    q.pop = (none, q) := by
  obtain ⟨hpushing, hpopping, hspilling, hlWF, hrWF, hmWF, hpc, hqc, hcount, hnul⟩ := hWF
  have h0 : wsub W64 q.push_count q.pop_count = 0 := by
    rw [hcount, h]
    rfl
  simp [pop, hpopping, h0]

theorem pop_ok_q (q : PathQueue) (hWF : q.WF) (x : FsPath) (xs : List FsPath)
    (h : toList q = x :: xs) :
    (q.pop).1 = some x ∧
    (q.pop).2.WF ∧
    toList (q.pop).2 = xs ∧
    (q.pop).2.pop_count = (q.pop_count + 1) % W64 ∧
    (q.pop).2.push_count = q.push_count ∧
    midPushCount (q.pop).2 + (q.pop).2.left.size + (q.pop).2.right.size ≤
      midPushCount q + q.left.size + q.right.size := by
  obtain ⟨hpushing, hpopping, hspilling, hlWF, hrWF, hmWF, hpc, hqc, hcount, hnul⟩ := hWF
  have hlen : (toList q).length = xs.length + 1 := by
    rw [h]
    rfl
  have hcnt0 : wsub W64 q.push_count q.pop_count = xs.length + 1 := by
    rw [hcount, hlen]
  have hne : ¬ wsub W64 q.push_count q.pop_count = 0 := by omega
  have hstep : wsub W64 q.push_count ((q.pop_count + 1) % W64) = xs.length := by
    rw [wsub_pop_succ W64 q.push_count q.pop_count hpc hqc (by omega), hcnt0]
    omega
  have hnul2 : ∀ p2 ∈ xs, ¬ 0 ∈ p2 := by
    intro p2 hp2
    exact hnul p2 (by rw [h]; simp [hp2])
  cases hli : q.left.items with
  | cons a ls =>
    -- left non-empty: pop from left
    obtain ⟨hl1, hl2, hl3, hl4, hl5, hl6, hl7⟩ := MemPathQueue.pop_ok q.left hlWF a ls hli
    rcases hlp : q.left.pop with ⟨lo, l2⟩
    rw [hlp] at hl1 hl2 hl3 hl4 hl5 hl6 hl7
    simp only at hl1 hl2 hl3 hl4 hl5 hl6 hl7
    have hdec : toList q = a :: (ls ++ midPending q ++ q.right.items) := by
      have h1 : toList q = q.left.items ++ midPending q ++ q.right.items := rfl
      rw [h1, hli]
      simp
    rw [h] at hdec
    injection hdec with hxa hxs
    have hq2 : q.pop = (some a, { q with left := l2, pop_count := (q.pop_count + 1) % W64 }) := by
      simp [pop, hpopping, hne, hspilling, hlp, hl1]
    have hfst : (q.pop).1 = some x := by
      rw [hq2, hxa]
    have hsnd : (q.pop).2 = { q with left := l2, pop_count := (q.pop_count + 1) % W64 } := by
      rw [hq2]
    have htl : toList (q.pop).2 = xs := by
      rw [hsnd]
      have hLHS : toList ({ q with left := l2, pop_count := (q.pop_count + 1) % W64 }) = l2.items ++ midPending q ++ q.right.items := rfl
      rw [hLHS, hl2, hxs]
    refine ⟨hfst, ?_, htl, ?_, ?_, ?_⟩
    · rw [hsnd]
      refine ⟨hpushing, hpopping, hspilling, hl3, hrWF, hmWF, hpc, ?_, ?_, ?_⟩
      · exact Nat.mod_lt _ (by norm_num [W64])
      · show wsub W64 q.push_count ((q.pop_count + 1) % W64) = (toList ({ q with left := l2, pop_count := (q.pop_count + 1) % W64 })).length
        rw [← hsnd, htl, hstep]
      · show ∀ p2 ∈ toList ({ q with left := l2, pop_count := (q.pop_count + 1) % W64 }), ¬ 0 ∈ p2
        rw [← hsnd, htl]
        exact hnul2
    · rw [hsnd]
    · rw [hsnd]
    · rw [hsnd]
      show midPushCount q + l2.size + q.right.size ≤ _
      omega
  | nil =>
    -- left empty
    have hlsz : q.left.size = 0 := by
      rw [← MemPathQueue.items_length q.left, hli]
      rfl
    have hlp : q.left.pop = (none, q.left) := MemPathQueue.pop_empty q.left hlsz
    cases hqm : q.mid with
    | some m =>
      have hmwf : m.WF := by
        have h2 := hmWF
        unfold midWF at h2
        rw [hqm] at h2
        exact h2
      have hmpq : midPending q = m.pending := by
        unfold midPending
        rw [hqm]
      cases hmp : m.pending with
      | cons y ys =>
        -- mid non-empty: pop from mid
        obtain ⟨hm1, hm2, hm3, hm4, hm5⟩ := TempfilePathQueue.pop_pending m hmwf y ys hmp
        rcases hmop : m.pop with ⟨mo, m2⟩
        rw [hmop] at hm1 hm2 hm3 hm4 hm5
        simp only at hm1 hm2 hm3 hm4 hm5
        have hdec : toList q = y :: (ys ++ q.right.items) := by
          have h1 : toList q = q.left.items ++ midPending q ++ q.right.items := rfl
          rw [h1, hli, hmpq, hmp]
          simp
        rw [h] at hdec
        injection hdec with hxa hxs
        have hq2 : q.pop = (some y, { q with mid := some m2, pop_count := (q.pop_count + 1) % W64 }) := by
          simp [pop, hpopping, hne, hspilling, hlp, hqm, hmop, hm1]
        have hfst : (q.pop).1 = some x := by
          rw [hq2, hxa]
        have hsnd : (q.pop).2 = { q with mid := some m2, pop_count := (q.pop_count + 1) % W64 } := by
          rw [hq2]
        have htl : toList (q.pop).2 = xs := by
          rw [hsnd]
          have hLHS : toList ({ q with mid := some m2, pop_count := (q.pop_count + 1) % W64 }) = q.left.items ++ m2.pending ++ q.right.items := rfl
          rw [hLHS, hli, hm2, hxs]
          simp
        refine ⟨hfst, ?_, htl, ?_, ?_, ?_⟩
        · rw [hsnd]
          refine ⟨hpushing, hpopping, hspilling, hlWF, hrWF, ?_, hpc, ?_, ?_, ?_⟩
          · show midWF _
            unfold midWF
            exact hm3
          · exact Nat.mod_lt _ (by norm_num [W64])
          · show wsub W64 q.push_count ((q.pop_count + 1) % W64) = (toList ({ q with mid := some m2, pop_count := (q.pop_count + 1) % W64 })).length
            rw [← hsnd, htl, hstep]
          · show ∀ p2 ∈ toList ({ q with mid := some m2, pop_count := (q.pop_count + 1) % W64 }), ¬ 0 ∈ p2
            rw [← hsnd, htl]
            exact hnul2
        · rw [hsnd]
        · rw [hsnd]
        · rw [hsnd]
          show m2.push_count + q.left.size + q.right.size ≤ midPushCount q + _ + _
          have hmpc : midPushCount q = m.push_count := by
            unfold midPushCount
            rw [hqm]
          rw [hmpc, hm4]
      | nil =>
        -- mid exists but is empty: pop from right
        have hmcond : m.push_count - m.pop_count = 0 := by
          obtain ⟨-, -, -, h4, -, -⟩ := hmwf
          rw [h4, hmp]
          simp
        have hmop : m.pop = (none, m) := by
          simp [TempfilePathQueue.pop, hmcond]
        have hri : q.right.items = x :: xs := by
          have h1 : toList q = q.left.items ++ midPending q ++ q.right.items := rfl
          rw [h, hli, hmpq, hmp] at h1
          simpa using h1.symm
        obtain ⟨hr1, hr2, hr3, hr4, hr5, hr6, hr7⟩ := MemPathQueue.pop_ok q.right hrWF x xs hri
        rcases hrp : q.right.pop with ⟨ro, r2⟩
        rw [hrp] at hr1 hr2 hr3 hr4 hr5 hr6 hr7
        simp only at hr1 hr2 hr3 hr4 hr5 hr6 hr7
        have hq2 : q.pop = (some x, { q with right := r2, pop_count := (q.pop_count + 1) % W64 }) := by
          simp [pop, hpopping, hne, hspilling, hlp, hqm, hmop, hrp, hr1]
        have hfst : (q.pop).1 = some x := by
          rw [hq2]
        have hsnd : (q.pop).2 = { q with right := r2, pop_count := (q.pop_count + 1) % W64 } := by
          rw [hq2]
        have htl : toList (q.pop).2 = xs := by
          rw [hsnd]
          have hLHS : toList ({ q with right := r2, pop_count := (q.pop_count + 1) % W64 }) = q.left.items ++ midPending q ++ r2.items := rfl
          rw [hLHS, hli, hmpq, hmp, hr2]
          simp
        refine ⟨hfst, ?_, htl, ?_, ?_, ?_⟩
        · rw [hsnd]
          refine ⟨hpushing, hpopping, hspilling, hlWF, hr3, hmWF, hpc, ?_, ?_, ?_⟩
          · exact Nat.mod_lt _ (by norm_num [W64])
          · show wsub W64 q.push_count ((q.pop_count + 1) % W64) = (toList ({ q with right := r2, pop_count := (q.pop_count + 1) % W64 })).length
            rw [← hsnd, htl, hstep]
          · show ∀ p2 ∈ toList ({ q with right := r2, pop_count := (q.pop_count + 1) % W64 }), ¬ 0 ∈ p2
            rw [← hsnd, htl]
            exact hnul2
        · rw [hsnd]
        · rw [hsnd]
        · rw [hsnd]
          show midPushCount q + q.left.size + r2.size ≤ _
          omega
    | none =>
      -- no mid: pop from right
      have hmpq : midPending q = [] := by
        unfold midPending
        rw [hqm]
      have hri : q.right.items = x :: xs := by
        have h1 : toList q = q.left.items ++ midPending q ++ q.right.items := rfl
        rw [h, hli, hmpq] at h1
        simpa using h1.symm
      obtain ⟨hr1, hr2, hr3, hr4, hr5, hr6, hr7⟩ := MemPathQueue.pop_ok q.right hrWF x xs hri
      rcases hrp : q.right.pop with ⟨ro, r2⟩
      rw [hrp] at hr1 hr2 hr3 hr4 hr5 hr6 hr7
      simp only at hr1 hr2 hr3 hr4 hr5 hr6 hr7
      have hq2 : q.pop = (some x, { q with right := r2, pop_count := (q.pop_count + 1) % W64 }) := by
        simp [pop, hpopping, hne, hspilling, hlp, hqm, hrp, hr1]
      have hfst : (q.pop).1 = some x := by
        rw [hq2]
      have hsnd : (q.pop).2 = { q with right := r2, pop_count := (q.pop_count + 1) % W64 } := by
        rw [hq2]
      have htl : toList (q.pop).2 = xs := by
        rw [hsnd]
        have hLHS : toList ({ q with right := r2, pop_count := (q.pop_count + 1) % W64 }) = q.left.items ++ midPending q ++ r2.items := rfl
        rw [hLHS, hli, hmpq, hr2]
        simp
      refine ⟨hfst, ?_, htl, ?_, ?_, ?_⟩
      · rw [hsnd]
        refine ⟨hpushing, hpopping, hspilling, hlWF, hr3, hmWF, hpc, ?_, ?_, ?_⟩
        · exact Nat.mod_lt _ (by norm_num [W64])
        · show wsub W64 q.push_count ((q.pop_count + 1) % W64) = (toList ({ q with right := r2, pop_count := (q.pop_count + 1) % W64 })).length
          rw [← hsnd, htl, hstep]
        · show ∀ p2 ∈ toList ({ q with right := r2, pop_count := (q.pop_count + 1) % W64 }), ¬ 0 ∈ p2
          rw [← hsnd, htl]
          exact hnul2
      · rw [hsnd]
      · rw [hsnd]
      · rw [hsnd]
        show midPushCount q + q.left.size + r2.size ≤ _
        omega

end PathQueue

/-- One operation of a producer/consumer interleaving on a `PathQueue`. -/
inductive QOp where
  | push (p : FsPath)
  | pop
deriving DecidableEq

/-- The paths a sequence of operations offers for pushing, in order. -/
def pushesOf : List QOp → List FsPath
  | [] => []
  | QOp.push p :: ops => p :: pushesOf ops
  | QOp.pop :: ops => pushesOf ops

namespace PathQueue

/-- Run a sequence of operations; returns the final queue, the paths the
queue accepted (in push order) and the paths returned by successful pops
(in pop order). -/
def runTrace : PathQueue → List QOp → PathQueue × List FsPath × List FsPath
  | q, [] => (q, [], [])
  | q, QOp.push p :: ops =>
    match q.push p with
    | (none, q2) =>
      let r := runTrace q2 ops
      (r.1, p :: r.2.1, r.2.2)
    | (some _, q2) => runTrace q2 ops
  | q, QOp.pop :: ops =>
    match q.pop with
    | (some p, q2) =>
      let r := runTrace q2 ops
      (r.1, r.2.1, p :: r.2.2)
    | (none, q2) => runTrace q2 ops

theorem runTrace_spec : ∀ (ops : List QOp) (q : PathQueue), q.WF →
    (∀ p, QOp.push p ∈ ops → ¬ 0 ∈ p) →
    (toList q).length + ops.length < W64 →
    midPushCount q + q.left.size + q.right.size + ops.length < W64 →
    (runTrace q ops).2.2 ++ toList (runTrace q ops).1
        = toList q ++ (runTrace q ops).2.1 ∧
    (runTrace q ops).1.WF ∧
    (toList (runTrace q ops).1).length ≤ (toList q).length + ops.length ∧
    midPushCount (runTrace q ops).1 + (runTrace q ops).1.left.size +
        (runTrace q ops).1.right.size ≤
      midPushCount q + q.left.size + q.right.size + ops.length ∧
    (runTrace q ops).2.1 = pushesOf ops := by
  intro ops
  induction ops with
  | nil =>
    intro q hWF hnul hb1 hb2
    exact ⟨by simp [runTrace], hWF, by simp [runTrace], by simp [runTrace],
      by simp [runTrace, pushesOf]⟩
  | cons op ops ih =>
    intro q hWF hnul hb1 hb2
    have hnul2 : ∀ x, QOp.push x ∈ ops → ¬ 0 ∈ x := fun x hx => hnul x (by simp [hx])
    cases op with
    | push p =>
      have hp : ¬ 0 ∈ p := hnul p (by simp)
      obtain ⟨hp1, hp2, hp3, hp4, hp5, hp6⟩ :=
        push_ok_q q p hWF hp (by simp at hb1; omega) (by simp at hb2; omega)
      rcases hpq : q.push p with ⟨po, q2⟩
      rw [hpq] at hp1 hp2 hp3 hp4 hp5 hp6
      simp only at hp1 hp2 hp3 hp4 hp5 hp6
      have hlen2 : (toList q2).length = (toList q).length + 1 := by
        rw [hp3]
        simp
      obtain ⟨e1, e2, e3, e4, e5⟩ := ih q2 hp2 hnul2
        (by rw [hlen2]; simp at hb1; omega)
        (by rw [hp6]; simp at hb2; omega)
      have hrun : runTrace q (QOp.push p :: ops) =
          ((runTrace q2 ops).1, p :: (runTrace q2 ops).2.1,
           (runTrace q2 ops).2.2) := by
        simp [runTrace, hpq, hp1]
      refine ⟨?_, ?_, ?_, ?_, ?_⟩
      · rw [hrun]
        show (runTrace q2 ops).2.2 ++ toList (runTrace q2 ops).1 =
          toList q ++ (p :: (runTrace q2 ops).2.1)
        rw [e1, hp3]
        simp
      · rw [hrun]
        exact e2
      · rw [hrun]
        show (toList (runTrace q2 ops).1).length ≤ (toList q).length +
          (QOp.push p :: ops).length
        simp only [List.length_cons]
        omega
      · rw [hrun]
        show midPushCount (runTrace q2 ops).1 + (runTrace q2 ops).1.left.size +
            (runTrace q2 ops).1.right.size ≤
          midPushCount q + q.left.size + q.right.size + (QOp.push p :: ops).length
        simp only [List.length_cons]
        omega
      · rw [hrun]
        show p :: (runTrace q2 ops).2.1 = pushesOf (QOp.push p :: ops)
        rw [e5]
        rfl
    | pop =>
      by_cases h0 : toList q = []
      case pos =>
        have hpop : q.pop = (none, q) := pop_empty_q q hWF h0
        have hrun : runTrace q (QOp.pop :: ops) = runTrace q ops := by
          simp [runTrace, hpop]
        obtain ⟨e1, e2, e3, e4, e5⟩ := ih q hWF hnul2
          (by simp at hb1; omega) (by simp at hb2; omega)
        rw [hrun]
        refine ⟨e1, e2, ?_, ?_, e5⟩
        · simp only [List.length_cons]
          omega
        · simp only [List.length_cons]
          omega
      case neg =>
        obtain ⟨x, xs, htl⟩ : ∃ x xs, toList q = x :: xs := by
          cases hc : toList q with
          | nil => exact absurd hc h0
          | cons x xs => exact ⟨x, xs, rfl⟩
        obtain ⟨k1, k2, k3, k4, k5, k6⟩ := pop_ok_q q hWF x xs htl
        rcases hpq : q.pop with ⟨po, q2⟩
        rw [hpq] at k1 k2 k3 k4 k5 k6
        simp only at k1 k2 k3 k4 k5 k6
        have hlq : (toList q).length = xs.length + 1 := by
          rw [htl]
          rfl
        have hlen2 : (toList q2).length = xs.length := by
          rw [k3]
        obtain ⟨e1, e2, e3, e4, e5⟩ := ih q2 k2 hnul2
          (by rw [hlen2]; simp at hb1; omega)
          (by simp at hb2; omega)
        have hrun : runTrace q (QOp.pop :: ops) =
            ((runTrace q2 ops).1, (runTrace q2 ops).2.1,
             x :: (runTrace q2 ops).2.2) := by
          simp [runTrace, hpq, k1]
        refine ⟨?_, ?_, ?_, ?_, ?_⟩
        · rw [hrun]
          show (x :: (runTrace q2 ops).2.2) ++ toList (runTrace q2 ops).1 =
            toList q ++ (runTrace q2 ops).2.1
          simp only [List.cons_append]
          rw [e1, k3, htl]
          simp
        · rw [hrun]
          exact e2
        · rw [hrun]
          show (toList (runTrace q2 ops).1).length ≤ (toList q).length +
            (QOp.pop :: ops).length
          simp only [List.length_cons]
          omega
        · rw [hrun]
          show midPushCount (runTrace q2 ops).1 + (runTrace q2 ops).1.left.size +
              (runTrace q2 ops).1.right.size ≤
            midPushCount q + q.left.size + q.right.size + (QOp.pop :: ops).length
          simp only [List.length_cons]
          omega
        · rw [hrun]
          exact e5

end PathQueue


theorem getD_eq_get {α : Type} (l : List α) (i : Nat) (d : α) (h : i < l.length) :
    l.getD i d = l.get ⟨i, h⟩ := by
  simp [List.getD_eq_getElem?_getD, List.getElem?_eq_getElem h]

/-- Worker-loop outcome of one iteration of `breadth_first_traverse`
(`main.rs:92-151`). -/
inductive WorkerStep where
  | process (path : FsPath)
  | terminate
  | retry
deriving DecidableEq

/-- Decision taken by one iteration of the loop in `breadth_first_traverse`
(`main.rs:94-150`): a popped path is processed; otherwise the worker exits
iff the outstanding-work counter reads zero, and sleeps 7 ms and retries
otherwise. -/
def workerLoopStep (popResult : Option FsPath) (counter : Nat) : WorkerStep :=
  match popResult with
  | some p => WorkerStep.process p
  | none => if counter = 0 then WorkerStep.terminate else WorkerStep.retry

instance : Inhabited PathQueue := ⟨PathQueue.new 1 1⟩

/-- The steal loop of `pop_or_steal` (`main.rs:58-64`): try the `pop` of
every queue whose position differs from `index`, in order; `i` is the
position of the head of the remaining list. -/
def stealLoop : List PathQueue → Nat → Nat → Option FsPath × List PathQueue
  | [], _, _ => (none, [])
  | q :: qs, i, index =>
    if i = index then
      let r := stealLoop qs (i + 1) index
      (r.1, q :: r.2)
    else
      match q.pop with
      | (some p, q2) => (some p, q2 :: qs)
      | (none, q2) =>
        let r := stealLoop qs (i + 1) index
        (r.1, q2 :: r.2)

/-- Translation of `pop_or_steal` (`main.rs:54-67`): pop the worker's own
queue first; if that yields nothing, steal from every other queue in index
order. -/
def pop_or_steal (queues : List PathQueue) (index : Nat) :
    Option FsPath × List PathQueue :=
  match (queues.getD index default).pop with
  | (some p, q2) => (some p, queues.set index q2)
  | (none, q2) => stealLoop (queues.set index q2) 0 index

/-- Translation of the thread-count computation in `main` (`main.rs:252-258`):
`thread::available_parallelism()` plus one. -/
def num_threads (available_parallelism : Nat) : Nat := available_parallelism + 1

/-- Modelled from the spec: "N equals the system's reported hardware
parallelism" (§4.D, Initialisation). -/
def num_threads_spec (available_parallelism : Nat) : Nat := available_parallelism

/-- The queues allocated by `main` (`main.rs:260-269`): one per thread, each
with ring lengths `1024 * 512 / num_threads`. -/
def mkQueues (n : Nat) : List PathQueue :=
  (List.range n).map (fun _ => PathQueue.new (1024 * 512 / n) (1024 * 512 / n))

namespace PathQueue

theorem pop_cases (q : PathQueue) :
    (∃ p, (q.pop).1 = some p) ∨ q.pop = (none, q) := by
  by_cases h1 : q.popping = true
  · right
    simp [pop, h1]
  · by_cases h2 : wsub W64 q.push_count q.pop_count = 0
    · right
      simp [pop, h1, h2]
    · by_cases h3 : q.spilling = true
      · right
        simp [pop, h1, h2, h3]
      · rcases hl : q.left.pop with ⟨lo, l2⟩
        cases lo with
        | some p =>
          left
          exact ⟨p, by simp [pop, h1, h2, h3, hl]⟩
        | none =>
          cases hm : q.mid with
          | none =>
            rcases hr : q.right.pop with ⟨ro, r2⟩
            cases ro with
            | some p =>
              left
              exact ⟨p, by simp [pop, h1, h2, h3, hl, hm, hr]⟩
            | none =>
              right
              simp [pop, h1, h2, h3, hl, hm, hr]
          | some m =>
            rcases hmp : m.pop with ⟨mo, m2⟩
            cases mo with
            | some p =>
              left
              exact ⟨p, by simp [pop, h1, h2, h3, hl, hm, hmp]⟩
            | none =>
              rcases hr : q.right.pop with ⟨ro, r2⟩
              cases ro with
              | some p =>
                left
                exact ⟨p, by simp [pop, h1, h2, h3, hl, hm, hmp, hr]⟩
              | none =>
                right
                simp [pop, h1, h2, h3, hl, hm, hmp, hr]

theorem pop_none_id_q (q : PathQueue) (h : (q.pop).1 = none) : q.pop = (none, q) := by
  rcases pop_cases q with ⟨p, hp⟩ | hid
  · rw [hp] at h
    simp at h
  · exact hid

end PathQueue

theorem stealLoop_none_of_all (qs : List PathQueue) (index : Nat)
    (h : ∀ q ∈ qs, (q.pop).1 = none) :
    ∀ i, (stealLoop qs i index).1 = none := by
  induction qs with
  | nil => intro i; rfl
  | cons q qs ih =>
    intro i
    unfold stealLoop
    by_cases hi : i = index
    · rw [if_pos hi]
      show (stealLoop qs (i + 1) index).1 = none
      exact ih (fun q2 hq2 => h q2 (List.mem_cons_of_mem _ hq2)) (i + 1)
    · rw [if_neg hi]
      have hq : q.pop = (none, q) := PathQueue.pop_none_id_q q (h q (by simp))
      rw [hq]
      show (stealLoop qs (i + 1) index).1 = none
      exact ih (fun q2 hq2 => h q2 (List.mem_cons_of_mem _ hq2)) (i + 1)

theorem stealLoop_all_of_none (qs : List PathQueue) (index : Nat) :
    ∀ i, (stealLoop qs i index).1 = none →
    ∀ j (hj : j < qs.length), i + j ≠ index → ((qs.get ⟨j, hj⟩).pop).1 = none := by
  induction qs with
  | nil =>
    intro i _ j hj
    simp at hj
  | cons q qs ih =>
    intro i h j hj hne
    unfold stealLoop at h
    by_cases hi : i = index
    · rw [if_pos hi] at h
      have h2 : (stealLoop qs (i + 1) index).1 = none := h
      cases j with
      | zero => exact absurd (by omega) hne
      | succ j =>
        exact ih (i + 1) h2 j (by simpa using hj) (by omega)
    · rw [if_neg hi] at h
      rcases hq : q.pop with ⟨qo, q2⟩
      rw [hq] at h
      cases qo with
      | some p => simp at h
      | none =>
        have h2 : (stealLoop qs (i + 1) index).1 = none := h
        cases j with
        | zero =>
          show (q.pop).1 = none
          rw [hq]
        | succ j =>
          exact ih (i + 1) h2 j (by simpa using hj) (by omega)

theorem pop_or_steal_none_iff (queues : List PathQueue) (index : Nat)
    (h : index < queues.length) :
    (pop_or_steal queues index).1 = none ↔ ∀ q ∈ queues, (q.pop).1 = none := by
  by_cases hown : ((queues.getD index default).pop).1 = none
  · have hid := PathQueue.pop_none_id_q _ hown
    have hset : queues.set index (queues.getD index default) = queues :=
      set_getD_self queues index default h
    have hps : pop_or_steal queues index = stealLoop queues 0 index := by
      unfold pop_or_steal
      rw [hid]
      show stealLoop (queues.set index (queues.getD index default)) 0 index = _
      rw [hset]
    rw [hps]
    constructor
    · intro hnone q hq
      obtain ⟨⟨j, hj⟩, hget⟩ := List.mem_iff_get.mp hq
      by_cases hji : j = index
      · rw [← hget]
        subst hji
        rw [← getD_eq_get queues j default hj]
        exact hown
      · rw [← hget]
        exact stealLoop_all_of_none queues index 0 hnone j hj (by omega)
    · intro hall
      exact stealLoop_none_of_all queues index hall 0
  · rcases hop : (queues.getD index default).pop with ⟨oo, own2⟩
    rw [hop] at hown
    cases oo with
    | none => simp at hown
    | some p =>
      have hfst : (pop_or_steal queues index).1 = some p := by
        unfold pop_or_steal
        rw [hop]
      constructor
      · intro hc
        rw [hfst] at hc
        simp at hc
      · intro hall
        exfalso
        apply hown
        show ((some p : Option FsPath), own2).1 = none
        rw [← hop]
        have hmem : queues.getD index default ∈ queues := by
          rw [getD_eq_get queues index default h]
          exact List.get_mem queues index h
        exact hall _ hmem

theorem workerLoopStep_terminate_iff (r : Option FsPath) (c : Nat) :
    workerLoopStep r c = WorkerStep.terminate ↔ r = none ∧ c = 0 := by
  cases r with
  | some p => simp [workerLoopStep]
  | none => by_cases hc : c = 0 <;> simp [workerLoopStep, hc]

theorem workerLoopStep_retry (r : Option FsPath) (c : Nat) (h1 : r = none)
    (h2 : c ≠ 0) : workerLoopStep r c = WorkerStep.retry := by
  subst h1
  simp [workerLoopStep, h2]

theorem mem_pushesOf {p : FsPath} : ∀ {ops : List QOp},
    QOp.push p ∈ ops → p ∈ pushesOf ops := by
  intro ops
  induction ops with
  | nil => intro h; simp at h
  | cons op ops ih =>
    intro h
    rcases List.mem_cons.mp h with h1 | h1
    · rw [← h1]
      simp [pushesOf]
    · cases op with
      | push p2 => simp [pushesOf, ih h1]
      | pop => exact ih h1

namespace PathQueue

theorem push_succ_count (q q2 : PathQueue) (p : FsPath)
    (h : q.push p = (none, q2)) : q2.push_count = (q.push_count + 1) % W64 := by
  unfold push at h
  by_cases h1 : q.pushing = true
  · rw [if_pos h1] at h
    simp at h
  · rw [if_neg h1] at h
    rcases hrp : q.right.push p with ⟨ro, r2⟩
    rw [hrp] at h
    cases ro with
    | none =>
      simp only [Prod.mk.injEq] at h
      rw [← h.2]
    | some p2 =>
      by_cases h3 : q.spilling = true
      · simp [h3] at h
      · simp only [h3, Bool.false_eq_true, if_false] at h
        by_cases h4 : (q.mid.getD TempfilePathQueue.new).push_count -
            (q.mid.getD TempfilePathQueue.new).pop_count = 0
        · simp only [h4, if_true] at h
          simp only [Prod.mk.injEq] at h
          rw [← h.2]
        · simp only [h4, if_false] at h
          simp only [Prod.mk.injEq] at h
          rw [← h.2]

theorem pop_succ_count (q q2 : PathQueue) (p : FsPath)
    (h : q.pop = (some p, q2)) : q2.pop_count = (q.pop_count + 1) % W64 := by
  unfold pop at h
  by_cases h1 : q.popping = true
  · rw [if_pos h1] at h
    simp at h
  · rw [if_neg h1] at h
    by_cases h2 : wsub W64 q.push_count q.pop_count = 0
    · rw [if_pos h2] at h
      simp at h
    · rw [if_neg h2] at h
      by_cases h3 : q.spilling = true
      · rw [if_pos h3] at h
        simp at h
      · rw [if_neg h3] at h
        rcases hl : q.left.pop with ⟨lo, l2⟩
        rw [hl] at h
        cases lo with
        | some pl =>
          simp only [Prod.mk.injEq] at h
          rw [← h.2]
        | none =>
          simp only at h
          cases hm : q.mid with
          | none =>
            rw [hm] at h
            simp only at h
            rcases hr : q.right.pop with ⟨ro, r2⟩
            rw [hr] at h
            cases ro with
            | some pr =>
              simp only [Prod.mk.injEq] at h
              rw [← h.2]
            | none => simp at h
          | some m =>
            rw [hm] at h
            simp only at h
            rcases hmp : m.pop with ⟨mo, m2⟩
            rw [hmp] at h
            cases mo with
            | some pm =>
              simp only [Prod.mk.injEq] at h
              rw [← h.2]
            | none =>
              simp only at h
              rcases hr : q.right.pop with ⟨ro, r2⟩
              rw [hr] at h
              cases ro with
              | some pr =>
                simp only [Prod.mk.injEq] at h
                rw [← h.2]
              | none => simp at h

end PathQueue

/-! Claim theorems and their witnesses. -/

/-- Push a list of paths one by one (producer side), keeping the queue. -/
def pushAllQ (q : PathQueue) : List FsPath → PathQueue
  | [] => q
  | p :: ps => pushAllQ ((q.push p).2) ps

/-- Queue with ring lengths 2 whose right ring is full and whose spill log
was never created (two pushes). -/
def c2qA : PathQueue := pushAllQ (PathQueue.new 2 2) [[49], [50]]

/-- Queue with ring lengths 2 holding six paths: left full, spill log
non-empty, right full (the state of the repository's `single_thread` test
after six pushes). -/
def c2qB : PathQueue :=
  pushAllQ (PathQueue.new 2 2) [[49], [50], [51], [52], [53], [54]]

/-- Ring of capacity 2 holding one path. -/
def c3q : MemPathQueue := ((MemPathQueue.new 2).push [49]).2

/-- Ring of capacity 2, full. -/
def c3full : MemPathQueue := (c3q.push [50]).2

/-- Spill log holding one record. -/
def c5m : TempfilePathQueue := TempfilePathQueue.new.push [49]

/-- A non-empty queue whose popping lock is held by another thread. -/
def lockedBusyExample : PathQueue :=
  { ((PathQueue.new 1 1).push [49]).2 with popping := true }

/-- A queue with a full right ring whose spilling lock is held by another
thread. -/
def lockedSpillExample : PathQueue := { c2qA with spilling := true }

/-- The operation trace of the repository's `single_thread` test: six
pushes then six pops, on ring lengths 2. -/
def c1ops : List QOp :=
  [QOp.push [49], QOp.push [50], QOp.push [51], QOp.push [52], QOp.push [53],
   QOp.push [54], QOp.pop, QOp.pop, QOp.pop, QOp.pop, QOp.pop, QOp.pop]

/-- C3: for every well-formed `MemPathQueue` with capacity `C` (a power of
two), `push` returns the path back unchanged when the wrapping difference
`push_count - pop_count` equals `C`, and otherwise writes the path into
slot `push_count mod C` and increments `push_count`; `pop` returns `None`
when `push_count = pop_count`, and otherwise returns the path in slot
`pop_count mod C` and increments `pop_count` (all counter arithmetic
wrapping modulo `2^32`). -/
theorem claim_C3_mem_ring_contract (q : MemPathQueue) (p : FsPath) (hWF : q.WF) :
    (wsub W32 q.push_count q.pop_count = q.capacity → q.push p = (some p, q)) ∧
    (wsub W32 q.push_count q.pop_count ≠ q.capacity →
      q.push p = (none, { q with buf := q.buf.set (q.push_count % q.capacity) p, push_count := (q.push_count + 1) % W32 })) ∧
    (q.push_count = q.pop_count → q.pop = (none, q)) ∧
    (q.push_count ≠ q.pop_count →
      q.pop = (some (q.buf.getD (q.pop_count % q.capacity) []), { q with pop_count := (q.pop_count + 1) % W32 })) := by
  obtain ⟨hCpos, hCdvd, hblen, hpw, hqw, hsle⟩ := hWF
  have hmaskp : q.push_count &&& (q.capacity - 1) = q.push_count % q.capacity :=
    mask_eq_mod _ _ hCdvd
  have hmaskq : q.pop_count &&& (q.capacity - 1) = q.pop_count % q.capacity :=
    mask_eq_mod _ _ hCdvd
  have hzero : wsub W32 q.push_count q.pop_count = 0 ↔ q.push_count = q.pop_count :=
    wsub_eq_zero_iff W32 _ _ hpw hqw
  refine ⟨?_, ?_, ?_, ?_⟩
  · intro h
    exact MemPathQueue.push_full q p h
  · intro h
    have h2 : ¬ q.size = q.capacity := h
    rw [← hmaskp]
    simp [MemPathQueue.push, h2]
  · intro h
    exact MemPathQueue.pop_empty q (hzero.mpr h)
  · intro h
    have h2 : ¬ q.size = 0 := fun hc => h (hzero.mp hc)
    rw [← hmaskq]
    simp [MemPathQueue.pop, h2]

theorem claim_C3_mem_ring_contract_witness :
    (c3full.push [51] = (some [51], c3full)) ∧
    (c3q.push [51] = (none, { c3q with buf := c3q.buf.set (c3q.push_count % c3q.capacity) [51], push_count := (c3q.push_count + 1) % W32 })) ∧
    ((MemPathQueue.new 2).pop = (none, MemPathQueue.new 2)) ∧
    (c3q.pop = (some (c3q.buf.getD (c3q.pop_count % c3q.capacity) []), { c3q with pop_count := (c3q.pop_count + 1) % W32 })) :=
  ⟨(claim_C3_mem_ring_contract c3full [51] (by decide)).1 (by decide),
   (claim_C3_mem_ring_contract c3q [51] (by decide)).2.1 (by decide),
   (claim_C3_mem_ring_contract (MemPathQueue.new 2) [0] (by decide)).2.2.1 (by decide),
   (claim_C3_mem_ring_contract c3q [0] (by decide)).2.2.2 (by decide)⟩

/-- C5: for every path whose bytes contain no NUL, `TempfilePathQueue::push`
appends exactly those bytes followed by one NUL byte to the spill file, a
later pop of that record returns the original path with the terminating NUL
stripped (popping the whole log returns every pending record and then the
new one, unchanged), and `pop` returns `None` exactly when
`push_count = pop_count`. -/
theorem claim_C5_spill_roundtrip (m : TempfilePathQueue) (ps : List FsPath)
    (p : FsPath) (hWF : m.WF) (hpend : m.pending = ps) (hp : ¬ 0 ∈ p)
    (hcnt : m.push_count + 1 < W64) :
    (m.push p).file = m.file ++ (p ++ [0]) ∧
    TempfilePathQueue.popListT (m.push p) (ps.length + 1) = ps ++ [p] ∧
    ((m.pop).1 = none ↔ m.push_count = m.pop_count) := by
  obtain ⟨hpend2, hWF2, -, -, hfile⟩ := TempfilePathQueue.push_pending m p hWF hp hcnt
  refine ⟨hfile, ?_, TempfilePathQueue.pop_none_iff m hWF⟩
  have hlen : (m.push p).pending.length = ps.length + 1 := by
    rw [hpend2, hpend]
    simp
  rw [TempfilePathQueue.popListT_pending (ps.length + 1) (m.push p) hWF2 hlen,
    hpend2, hpend]

theorem claim_C5_spill_roundtrip_witness :
    (TempfilePathQueue.new.push [49]).file =
      TempfilePathQueue.new.file ++ ([49] ++ [0]) ∧
    TempfilePathQueue.popListT (TempfilePathQueue.new.push [49])
      (List.length ([] : List FsPath) + 1) = [] ++ [[49]] ∧
    ((TempfilePathQueue.new.pop).1 = none ↔
      TempfilePathQueue.new.push_count = TempfilePathQueue.new.pop_count) :=
  claim_C5_spill_roundtrip TempfilePathQueue.new [] [49] (by decide) (by decide)
    (by decide) (by decide)

/-- C7: the claim says the `Drop` impl of `MemPathQueue` drops the path in
every occupied slot; the destructor in the source (`path_queue.rs:131-138`)
only deallocates the raw buffer and drops no resident path, so a ring
holding one path leaks it: the dropped-path list of the code differs from
the spec-conforming one. -/
theorem claim_C7_drop_leak :
    MemPathQueue.droppedOnDrop c3q = [] ∧
    MemPathQueue.specDroppedOnDrop c3q = [[49]] ∧
    MemPathQueue.droppedOnDrop c3q ≠ MemPathQueue.specDroppedOnDrop c3q :=
  ⟨rfl, by decide, by decide⟩

/-- C8 (counterexample): with an available parallelism of 4, `main` spawns
`4 + 1 = 5` worker threads, not 4 as the claim states. -/
theorem claim_C8_pool_sizing_cex : num_threads 4 ≠ num_threads_spec 4 := by
  decide

/-- C8 (amended): the number of worker threads is the available parallelism
plus one, and the number of queues allocated equals that thread count. -/
theorem claim_C8_pool_sizing_amended (available_parallelism : Nat) :
    num_threads available_parallelism = available_parallelism + 1 ∧
    (mkQueues (num_threads available_parallelism)).length =
      num_threads available_parallelism := by
  refine ⟨rfl, ?_⟩
  simp [mkQueues]

/-- C9: `PathQueue::push` and `PathQueue::pop` are non-blocking
try-operations. If the pushing lock is held by another thread, `push`
returns the path back with the queue unchanged; if the right ring is full
and the spilling lock is held, likewise. If the popping lock — or, past the
emptiness check, the spilling lock — is held, `pop` returns `None` with the
queue unchanged; in particular a `None` from `pop` does not imply the queue
is empty, as `lockedBusyExample` shows, and both operations are total
functions with no wait or timeout. -/
theorem claim_C9_try_semantics (q : PathQueue) (p : FsPath) :
    (q.pushing = true → q.push p = (some p, q)) ∧
    (q.pushing = false → q.spilling = true →
      q.right.size = q.right.capacity → q.push p = (some p, q)) ∧
    (q.popping = true → q.pop = (none, q)) ∧
    (q.popping = false → q.spilling = true → q.pop = (none, q)) ∧
    (PathQueue.toList lockedBusyExample ≠ [] ∧ (lockedBusyExample.pop).1 = none) := by
  refine ⟨?_, ?_, ?_, ?_, by decide, by decide⟩
  · intro h
    simp [PathQueue.push, h]
  · intro h1 h2 h3
    have hrp := MemPathQueue.push_full q.right p h3
    simp [PathQueue.push, h1, h2, hrp]
  · intro h
    simp [PathQueue.pop, h]
  · intro h1 h2
    by_cases hc : wsub W64 q.push_count q.pop_count = 0 <;>
      simp [PathQueue.pop, h1, h2, hc]

theorem claim_C9_try_semantics_witness :
    (({ PathQueue.new 1 1 with pushing := true } : PathQueue).push [49] =
      (some [49], { PathQueue.new 1 1 with pushing := true })) ∧
    (lockedSpillExample.push [51] = (some [51], lockedSpillExample)) ∧
    (({ PathQueue.new 1 1 with popping := true } : PathQueue).pop =
      (none, { PathQueue.new 1 1 with popping := true })) ∧
    (lockedSpillExample.pop = (none, lockedSpillExample)) :=
  ⟨(claim_C9_try_semantics _ [49]).1 rfl,
   (claim_C9_try_semantics lockedSpillExample [51]).2.1 rfl rfl (by decide),
   (claim_C9_try_semantics _ [49]).2.2.1 rfl,
   (claim_C9_try_semantics lockedSpillExample [49]).2.2.2.1 rfl rfl⟩

/-- C10: whenever `pop_count < push_count` and every completed push wrote
the path's bytes followed by exactly one NUL and flushed (the spill-log
well-formedness invariant), the `read_until` of `TempfilePathQueue::pop`
yields a buffer whose last byte is NUL — so the
`assert_eq!(delim, Some(b'\0'))` never fails — and `pop` returns a path. -/
theorem claim_C10_pop_assert (m : TempfilePathQueue) (hWF : m.WF)
    (hlt : m.pop_count < m.push_count) :
    m.popAssertOk ∧ ((m.pop).1).isSome = true := by
  obtain ⟨hfile, hnul, hle, heq, hW, hcur⟩ := hWF
  obtain ⟨x, xs, hxx⟩ : ∃ x xs, m.pending = x :: xs := by
    cases hp : m.pending with
    | nil =>
      rw [hp] at heq
      simp at heq
      omega
    | cons x xs => exact ⟨x, xs, rfl⟩
  have hmem : 0 ∈ m.file.drop m.cursor := by
    rw [hfile, hxx]
    show 0 ∈ x ++ 0 :: encodeRecords xs
    simp
  refine ⟨readUntil_last _ hmem, ?_⟩
  have hne : ¬ m.push_count - m.pop_count = 0 := by omega
  simp [TempfilePathQueue.pop, hne]

theorem claim_C10_pop_assert_witness :
    c5m.popAssertOk ∧ ((c5m.pop).1).isSome = true :=
  claim_C10_pop_assert c5m (by decide) (by decide)

/-- C1: FIFO per queue — for every interleaved sequence of pushes and pops
on a single queue (one producer, one consumer, executed sequentially), the
successful pops return exactly a prefix of the pushed paths in push order:
the popped sequence followed by the still-resident paths (in consumer
priority order left, then mid, then right) equals the pushed sequence. This
holds for all ring lengths, hence regardless of whether any path transited
the spill file. -/
theorem claim_C1_fifo (read_buf_len write_buf_len : Nat) (ops : List QOp)
    (h1 : read_buf_len ≤ 2 ^ 31) (h2 : write_buf_len ≤ 2 ^ 31)
    (hnul : ∀ p ∈ pushesOf ops, ¬ 0 ∈ p) (hlen : ops.length < W64) :
    (PathQueue.runTrace (PathQueue.new read_buf_len write_buf_len) ops).2.2 ++
      PathQueue.toList
        (PathQueue.runTrace (PathQueue.new read_buf_len write_buf_len) ops).1 =
      pushesOf ops := by
  have hWF := PathQueue.new_WF_q read_buf_len write_buf_len h1 h2
  have htl := PathQueue.toList_new read_buf_len write_buf_len
  have hnul2 : ∀ p, QOp.push p ∈ ops → ¬ 0 ∈ p :=
    fun p hp => hnul p (mem_pushesOf hp)
  obtain ⟨e1, e2, e3, e4, e5⟩ := PathQueue.runTrace_spec ops _ hWF hnul2
    (by rw [htl]; simpa using hlen)
    (by
      have hm : PathQueue.midPushCount (PathQueue.new read_buf_len write_buf_len)
          = 0 := rfl
      have hs1 : (PathQueue.new read_buf_len write_buf_len).left.size = 0 := by
        show wsub W32 0 0 = 0
        exact wsub_zero W32
      have hs2 : (PathQueue.new read_buf_len write_buf_len).right.size = 0 := by
        show wsub W32 0 0 = 0
        exact wsub_zero W32
      rw [hm, hs1, hs2]
      omega)
  rw [e1, htl, e5]
  simp

theorem claim_C1_fifo_witness :
    (PathQueue.runTrace (PathQueue.new 2 2) c1ops).2.2 ++
      PathQueue.toList (PathQueue.runTrace (PathQueue.new 2 2) c1ops).1 =
      pushesOf c1ops :=
  claim_C1_fifo 2 2 c1ops (by decide) (by decide) (by decide) (by decide)

/-- C4: mass conservation — over every interleaving of pushes and pops from
a fresh queue, the number of accepted pushes minus the number of successful
pops equals the wrapping difference of the queue's global `push_count` and
`pop_count`, which equals the number of paths resident across the left
ring, the mid spill log and the right ring; moreover every successful push
increments `push_count` by exactly one and every successful pop increments
`pop_count` by exactly one (modulo `2^64`). -/
theorem claim_C4_mass_conservation (read_buf_len write_buf_len : Nat)
    (ops : List QOp) (h1 : read_buf_len ≤ 2 ^ 31) (h2 : write_buf_len ≤ 2 ^ 31)
    (hnul : ∀ p ∈ pushesOf ops, ¬ 0 ∈ p) (hlen : ops.length < W64)
    (r : PathQueue × List FsPath × List FsPath)
    (hr : r = PathQueue.runTrace (PathQueue.new read_buf_len write_buf_len) ops) :
    (r.2.1.length = r.2.2.length + wsub W64 r.1.push_count r.1.pop_count ∧
     wsub W64 r.1.push_count r.1.pop_count =
       r.1.left.items.length + (PathQueue.midPending r.1).length +
       r.1.right.items.length) ∧
    (∀ (qa qb : PathQueue) (p : FsPath), qa.push p = (none, qb) →
      qb.push_count = (qa.push_count + 1) % W64) ∧
    (∀ (qa qb : PathQueue) (p : FsPath), qa.pop = (some p, qb) →
      qb.pop_count = (qa.pop_count + 1) % W64) := by
  subst hr
  have hWF := PathQueue.new_WF_q read_buf_len write_buf_len h1 h2
  have htl := PathQueue.toList_new read_buf_len write_buf_len
  have hnul2 : ∀ p, QOp.push p ∈ ops → ¬ 0 ∈ p :=
    fun p hp => hnul p (mem_pushesOf hp)
  obtain ⟨e1, e2, e3, e4, e5⟩ := PathQueue.runTrace_spec ops _ hWF hnul2
    (by rw [htl]; simpa using hlen)
    (by
      have hm : PathQueue.midPushCount (PathQueue.new read_buf_len write_buf_len)
          = 0 := rfl
      have hs1 : (PathQueue.new read_buf_len write_buf_len).left.size = 0 := by
        show wsub W32 0 0 = 0
        exact wsub_zero W32
      have hs2 : (PathQueue.new read_buf_len write_buf_len).right.size = 0 := by
        show wsub W32 0 0 = 0
        exact wsub_zero W32
      rw [hm, hs1, hs2]
      omega)
  obtain ⟨-, -, -, -, -, -, -, -, hcnt, -⟩ := e2
  refine ⟨⟨?_, ?_⟩, PathQueue.push_succ_count, PathQueue.pop_succ_count⟩
  · have hl := congrArg List.length e1
    rw [htl] at hl
    simp only [List.length_append, List.length_nil] at hl
    rw [hcnt]
    omega
  · rw [hcnt]
    show (PathQueue.toList _).length = _
    simp [PathQueue.toList]
    omega

theorem claim_C4_mass_conservation_witness :
    ((PathQueue.runTrace (PathQueue.new 2 2) c1ops).2.1.length =
      (PathQueue.runTrace (PathQueue.new 2 2) c1ops).2.2.length +
      wsub W64 (PathQueue.runTrace (PathQueue.new 2 2) c1ops).1.push_count
        (PathQueue.runTrace (PathQueue.new 2 2) c1ops).1.pop_count ∧
     wsub W64 (PathQueue.runTrace (PathQueue.new 2 2) c1ops).1.push_count
        (PathQueue.runTrace (PathQueue.new 2 2) c1ops).1.pop_count =
       (PathQueue.runTrace (PathQueue.new 2 2) c1ops).1.left.items.length +
       (PathQueue.midPending (PathQueue.runTrace (PathQueue.new 2 2) c1ops).1).length +
       (PathQueue.runTrace (PathQueue.new 2 2) c1ops).1.right.items.length) ∧
    ((PathQueue.new 2 2).push [49]).2.push_count =
      ((PathQueue.new 2 2).push_count + 1) % W64 ∧
    (c2qA.pop).2.pop_count = (c2qA.pop_count + 1) % W64 := by
  obtain ⟨hA, hPush, hPop⟩ := claim_C4_mass_conservation 2 2 c1ops (by decide)
    (by decide) (by decide) (by decide) _ rfl
  exact ⟨hA, hPush _ _ [49] (by decide), hPop _ _ [49] (by decide)⟩

/-- C6: the worker's traversal loop exits if and only if the attempt to pop
its own queue and steal from every peer yields no path while the
outstanding-work counter reads zero (a yielded-nothing `pop_or_steal` is
equivalent to every queue's `pop` returning `None`); if the pop yields
nothing but the counter is non-zero, the worker sleeps and retries instead
of exiting. -/
theorem claim_C6_worker_termination (queues : List PathQueue)
    (index counter : Nat) (h : index < queues.length) :
    (workerLoopStep (pop_or_steal queues index).1 counter =
        WorkerStep.terminate ↔
      (pop_or_steal queues index).1 = none ∧ counter = 0) ∧
    ((pop_or_steal queues index).1 = none ↔
      ∀ q ∈ queues, (q.pop).1 = none) ∧
    ((pop_or_steal queues index).1 = none → counter ≠ 0 →
      workerLoopStep (pop_or_steal queues index).1 counter =
        WorkerStep.retry) := by
  refine ⟨workerLoopStep_terminate_iff _ _,
    pop_or_steal_none_iff queues index h, ?_⟩
  intro hn hc
  exact workerLoopStep_retry _ _ hn hc

theorem claim_C6_worker_termination_witness :
    (workerLoopStep (pop_or_steal [PathQueue.new 1 1, PathQueue.new 1 1] 0).1 0 =
        WorkerStep.terminate ↔
      (pop_or_steal [PathQueue.new 1 1, PathQueue.new 1 1] 0).1 = none ∧ 0 = 0) ∧
    ((pop_or_steal [PathQueue.new 1 1, PathQueue.new 1 1] 0).1 = none ↔
      ∀ q ∈ [PathQueue.new 1 1, PathQueue.new 1 1], (q.pop).1 = none) ∧
    ((pop_or_steal [PathQueue.new 1 1, PathQueue.new 1 1] 0).1 = none → 0 ≠ 0 →
      workerLoopStep (pop_or_steal [PathQueue.new 1 1, PathQueue.new 1 1] 0).1 0 =
        WorkerStep.retry) :=
  claim_C6_worker_termination [PathQueue.new 1 1, PathQueue.new 1 1] 0 0 (by decide)

/-- C2: spill drain policy — when a push finds the right ring full (and the
locks are free), the push succeeds and: if the mid spill log is empty or
absent, the producer first drains right into left, writing to mid exactly
the items that do not fit in left (the first `left.capacity - left.size`
drained items land in left, the rest in mid); if mid is non-empty, the
producer drains right entirely into mid and left is untouched; in both
cases the rejected path is then re-pushed into the now-empty right ring,
which afterwards holds exactly that path. -/
theorem claim_C2_spill_policy (q : PathQueue) (p : FsPath) (hWF : q.WF)
    (hfull : q.right.size = q.right.capacity)
    (hmid : PathQueue.midPushCount q + q.right.size + 1 < W64) :
    (q.push p).1 = none ∧
    (PathQueue.midPending q = [] →
      (q.push p).2.left.items =
        q.left.items ++ q.right.items.take (q.left.capacity - q.left.size) ∧
      PathQueue.midPending (q.push p).2 =
        q.right.items.drop (q.left.capacity - q.left.size) ∧
      (q.push p).2.right.items = [p]) ∧
    (PathQueue.midPending q ≠ [] →
      (q.push p).2.left.items = q.left.items ∧
      PathQueue.midPending (q.push p).2 =
        PathQueue.midPending q ++ q.right.items ∧
      (q.push p).2.right.items = [p]) := by
  obtain ⟨hpushing, hpopping, hspilling, hlWF, hrWF, hmWF, hpc, hqc, hcount, hnul⟩ := hWF
  have hnulr : ∀ x ∈ q.right.items, ¬ 0 ∈ x := by
    intro x hx
    exact hnul x (by simp [PathQueue.toList, hx])
  have hrp : q.right.push p = (some p, q.right) :=
    MemPathQueue.push_full q.right p hfull
  have hm0 : (q.mid.getD TempfilePathQueue.new).WF ∧
      (q.mid.getD TempfilePathQueue.new).pending = PathQueue.midPending q ∧
      (q.mid.getD TempfilePathQueue.new).push_count = PathQueue.midPushCount q := by
    cases hqm : q.mid with
    | none =>
      refine ⟨TempfilePathQueue.new_WF, ?_, ?_⟩
      · simp only [hqm, Option.getD_none, PathQueue.midPending]
        exact TempfilePathQueue.new_pending
      · simp only [hqm, Option.getD_none, PathQueue.midPushCount]
        rfl
    | some m =>
      have hmwf : m.WF := by
        have h := hmWF
        unfold PathQueue.midWF at h
        rw [hqm] at h
        exact h
      refine ⟨?_, ?_, ?_⟩ <;>
        simp [PathQueue.midPending, PathQueue.midPushCount, hqm, hmwf]
  obtain ⟨hm0WF, hm0pend, hm0push⟩ := hm0
  have hcond_iff : (q.mid.getD TempfilePathQueue.new).push_count -
      (q.mid.getD TempfilePathQueue.new).pop_count = 0 ↔
      PathQueue.midPending q = [] := by
    obtain ⟨-, -, -, hmf4, -, -⟩ := hm0WF
    rw [hmf4, hm0pend]
    constructor
    · intro h
      exact List.eq_nil_of_length_eq_zero (by omega)
    · intro h
      rw [h]
      simp
  by_cases hcond : (q.mid.getD TempfilePathQueue.new).push_count -
      (q.mid.getD TempfilePathQueue.new).pop_count = 0
  · -- mid empty or absent
    have hmpnil : PathQueue.midPending q = [] := hcond_iff.mp hcond
    obtain ⟨i1, i2, i3, i4, i5, i6, i7, i8, i9, i10⟩ :=
      PathQueue.drainRL_spec q.right.size q.left (q.mid.getD TempfilePathQueue.new)
        q.right hlWF hm0WF hrWF (le_refl _) hnulr (by rw [hm0push]; omega)
    rcases hres : PathQueue.drainRL q.right.size q.left
        (q.mid.getD TempfilePathQueue.new) q.right with ⟨lf, mf, rf⟩
    rw [hres] at i1 i2 i3 i4 i5 i6 i7 i8 i9 i10
    simp only at i1 i2 i3 i4 i5 i6 i7 i8 i9 i10
    obtain ⟨j1, j2, j3, j4, j5, j6, j7⟩ :=
      MemPathQueue.push_ok rf p i6 (by
        rcases i6 with ⟨hc, -⟩
        omega)
    have hq2 : q.push p = (none, { q with left := lf, mid := some mf, right := (rf.push p).2, push_count := (q.push_count + 1) % W64 }) := by
      simp [PathQueue.push, hpushing, hrp, hspilling, hcond, hres]
    have hfst : (q.push p).1 = none := by rw [hq2]
    have hsnd : (q.push p).2 = { q with left := lf, mid := some mf, right := (rf.push p).2, push_count := (q.push_count + 1) % W64 } := by
      rw [hq2]
    have hj2 : (rf.push p).2.items = [p] := by
      rw [j2, i3]
      rfl
    refine ⟨hfst, ?_, ?_⟩
    · intro _
      refine ⟨?_, ?_, ?_⟩
      · rw [hsnd]
        exact i1
      · rw [hsnd]
        show mf.pending = _
        rw [i2, hm0pend, hmpnil]
        rfl
      · rw [hsnd]
        exact hj2
    · intro hne
      exact absurd hmpnil hne
  · -- mid non-empty
    have hmpne : PathQueue.midPending q ≠ [] := fun h => hcond (hcond_iff.mpr h)
    obtain ⟨i1, i2, i3, i4, i5, i6, i7⟩ :=
      PathQueue.drainRM_spec q.right.size (q.mid.getD TempfilePathQueue.new)
        q.right hm0WF hrWF (le_refl _) hnulr (by rw [hm0push]; omega)
    rcases hres : PathQueue.drainRM q.right.size (q.mid.getD TempfilePathQueue.new)
        q.right with ⟨mf, rf⟩
    rw [hres] at i1 i2 i3 i4 i5 i6 i7
    simp only at i1 i2 i3 i4 i5 i6 i7
    obtain ⟨j1, j2, j3, j4, j5, j6, j7⟩ :=
      MemPathQueue.push_ok rf p i4 (by
        rcases i4 with ⟨hc, -⟩
        omega)
    have hq2 : q.push p = (none, { q with mid := some mf, right := (rf.push p).2, push_count := (q.push_count + 1) % W64 }) := by
      simp [PathQueue.push, hpushing, hrp, hspilling, hcond, hres]
    have hfst : (q.push p).1 = none := by rw [hq2]
    have hsnd : (q.push p).2 = { q with mid := some mf, right := (rf.push p).2, push_count := (q.push_count + 1) % W64 } := by
      rw [hq2]
    have hj2 : (rf.push p).2.items = [p] := by
      rw [j2, i2]
      rfl
    refine ⟨hfst, ?_, ?_⟩
    · intro heq
      exact absurd heq hmpne
    · intro _
      refine ⟨?_, ?_, ?_⟩
      · rw [hsnd]
      · rw [hsnd]
        show mf.pending = _
        rw [i1, hm0pend]
      · rw [hsnd]
        exact hj2

theorem claim_C2_spill_policy_witness :
    ((c2qA.push [51]).1 = none ∧
     (PathQueue.midPending c2qA = [] →
       (c2qA.push [51]).2.left.items =
         c2qA.left.items ++
           c2qA.right.items.take (c2qA.left.capacity - c2qA.left.size) ∧
       PathQueue.midPending (c2qA.push [51]).2 =
         c2qA.right.items.drop (c2qA.left.capacity - c2qA.left.size) ∧
       (c2qA.push [51]).2.right.items = [[51]]) ∧
     (PathQueue.midPending c2qA ≠ [] →
       (c2qA.push [51]).2.left.items = c2qA.left.items ∧
       PathQueue.midPending (c2qA.push [51]).2 =
         PathQueue.midPending c2qA ++ c2qA.right.items ∧
       (c2qA.push [51]).2.right.items = [[51]])) ∧
    ((c2qB.push [55]).1 = none ∧
     (PathQueue.midPending c2qB = [] →
       (c2qB.push [55]).2.left.items =
         c2qB.left.items ++
           c2qB.right.items.take (c2qB.left.capacity - c2qB.left.size) ∧
       PathQueue.midPending (c2qB.push [55]).2 =
         c2qB.right.items.drop (c2qB.left.capacity - c2qB.left.size) ∧
       (c2qB.push [55]).2.right.items = [[55]]) ∧
     (PathQueue.midPending c2qB ≠ [] →
       (c2qB.push [55]).2.left.items = c2qB.left.items ∧
       PathQueue.midPending (c2qB.push [55]).2 =
         PathQueue.midPending c2qB ++ c2qB.right.items ∧
       (c2qB.push [55]).2.right.items = [[55]])) :=
  ⟨claim_C2_spill_policy c2qA [51] (by decide) (by decide) (by decide),
   claim_C2_spill_policy c2qB [55] (by decide) (by decide) (by decide)⟩
